import Mathlib

/-!
Verification development for the deal.II pattern / conversion layer
(`include/deal.II/base/patterns.h`).

Strings are modelled as lists of characters (`Str`), mirroring
`std::string` as a character sequence.  The template code of
`Patterns::Tools` (the `Convert` specializations and `RankInfo`) is
embedded from the header source.  The member function bodies that live in
the corresponding `.cc` translation units (`Patterns::*::match`,
`description`, `create`, `pattern_factory`, `Utilities::split_string_list`)
are not part of the repository snapshot; those are modelled from the
specification text, as indicated by their doc comments.
-/

abbrev Str := List Char

/-- View of a string literal as a character list. -/
def chars (s : String) : Str := s.toList

/-- Whitespace characters stripped by `Utilities::trim` at split points. -/
def isWs (c : Char) : Bool := c = ' ' || c = '\t' || c = '\n' || c = '\r'

/-- Drop leading whitespace. -/
def trimL (s : Str) : Str := s.dropWhile isWs

/-- Drop trailing whitespace. -/
def trimR (s : Str) : Str := (trimL s.reverse).reverse

/-- Modelled from the spec: tokens are trimmed of surrounding whitespace at
split points (`Utilities::trim`, implementation not under `src/`). -/
def trim (s : Str) : Str := trimR (trimL s)

/-! ### Decimal rendering of numbers (`std::to_string`) -/

/-- The character for the decimal digit `d < 10`. -/
def digitChar (d : Nat) : Char := Char.ofNat (48 + d)

/-- Decimal digits of `n`, least significant first; `fuel` bounds the loop. -/
def digitsRevF : Nat → Nat → Str
| 0, _ => []
| _, 0 => []
| fuel + 1, n => digitChar (n % 10) :: digitsRevF fuel (n / 10)

/-- Decimal rendering of a natural number (`std::to_string` on a
non-negative value). -/
def encNat (n : Nat) : Str := if n = 0 then ['0'] else (digitsRevF n n).reverse

/-- Decimal rendering of an `int` value (`std::to_string`). -/
def encInt (n : Int) : Str :=
  if n < 0 then '-' :: encNat n.natAbs else encNat n.toNat

/-- Numeric value of a digit string (most significant first). -/
def decNat (cs : Str) : Nat := cs.foldl (fun a c => 10 * a + (c.toNat - 48)) 0

theorem digitChar_toNat (d : Nat) (h : d < 10) : (digitChar d).toNat = 48 + d := by
  interval_cases d <;> rfl

theorem digitChar_isDigit (d : Nat) (h : d < 10) : (digitChar d).isDigit = true := by
  interval_cases d <;> rfl

theorem decNat_append_digit (cs : Str) (c : Char) :
    decNat (cs ++ [c]) = 10 * decNat cs + (c.toNat - 48) := by
  simp [decNat, List.foldl_append]

theorem decNat_digitsRevF (fuel n : Nat) (h : n ≤ fuel) :
    decNat ((digitsRevF fuel n).reverse) = n := by
  induction fuel generalizing n with
  | zero =>
    have : n = 0 := Nat.le_zero.mp h
    subst this; rfl
  | succ f ih =>
    cases n with
    | zero => rfl
    | succ m =>
      have hrec : (m + 1) / 10 ≤ f := by
        have h1 : (m + 1) / 10 < m + 1 := Nat.div_lt_self (Nat.succ_pos m) (by norm_num)
        omega
      simp only [digitsRevF, List.reverse_cons]
      rw [decNat_append_digit, ih _ hrec, digitChar_toNat _ (Nat.mod_lt _ (by norm_num))]
      omega

theorem decNat_encNat (n : Nat) : decNat (encNat n) = n := by
  by_cases h : n = 0
  · subst h; rfl
  · simp only [encNat, if_neg h]
    exact decNat_digitsRevF n n le_rfl

theorem digitsRevF_all_digits (fuel n : Nat) :
    ∀ c ∈ digitsRevF fuel n, c.isDigit = true := by
  induction fuel generalizing n with
  | zero => intro c hc; simp [digitsRevF] at hc
  | succ f ih =>
    intro c hc
    cases n with
    | zero => simp [digitsRevF] at hc
    | succ m =>
      simp only [digitsRevF, List.mem_cons] at hc
      rcases hc with hc | hc
      · subst hc; exact digitChar_isDigit _ (Nat.mod_lt _ (by norm_num))
      · exact ih _ _ hc

theorem encNat_all_digits (n : Nat) : ∀ c ∈ encNat n, c.isDigit = true := by
  intro c hc
  by_cases h : n = 0
  · subst h; simp [encNat] at hc; subst hc; rfl
  · simp only [encNat, if_neg h, List.mem_reverse] at hc
    exact digitsRevF_all_digits n n c hc

theorem encNat_ne_nil (n : Nat) : encNat n ≠ [] := by
  by_cases h : n = 0
  · subst h; simp [encNat]
  · simp only [encNat, if_neg h]
    intro hrev
    have : digitsRevF n n = [] := by
      cases hd : digitsRevF n n with
      | nil => rfl
      | cons a t => rw [hd] at hrev; simp at hrev
    cases n with
    | zero => exact h rfl
    | succ m => simp [digitsRevF] at this

/-! ### Generic scanning lemmas -/

/-- Is the head of `s` (if any) rejected by `p`? -/
def headNot (p : Char → Bool) : Str → Bool
| [] => true
| c :: _ => !(p c)

theorem takeWhile_all_append (p : Char → Bool) (l r : Str)
    (hl : ∀ c ∈ l, p c = true) (hr : headNot p r = true) :
    (l ++ r).takeWhile p = l := by
  induction l with
  | nil =>
    cases r with
    | nil => rfl
    | cons c cs => simp [headNot] at hr; simp [List.takeWhile, hr]
  | cons a t ih =>
    have ha : p a = true := hl a (by simp)
    simp [List.takeWhile_cons, ha, ih (fun c hc => hl c (by simp [hc]))]

theorem dropWhile_all_append (p : Char → Bool) (l r : Str)
    (hl : ∀ c ∈ l, p c = true) (hr : headNot p r = true) :
    (l ++ r).dropWhile p = r := by
  induction l with
  | nil =>
    cases r with
    | nil => rfl
    | cons c cs => simp [headNot] at hr; simp [List.dropWhile, hr]
  | cons a t ih =>
    have ha : p a = true := hl a (by simp)
    simp only [List.cons_append, List.dropWhile_cons, ha]
    exact ih (fun c hc => hl c (by simp [hc]))

/-! ### Number token parsing -/

/-- Read a leading run of decimal digits as a natural number; fails when the
string does not start with a digit. -/
def parseNat (cs : Str) : Option (Nat × Str) :=
  let ds := cs.takeWhile Char.isDigit
  if ds = [] then none else some (decNat ds, cs.dropWhile Char.isDigit)

/-- Read an optionally signed decimal integer prefix. -/
def parseInt (cs : Str) : Option (Int × Str) :=
  match cs with
  | [] => none
  | c :: r =>
    if c = '-' then (parseNat r).map (fun p => (-(p.1 : Int), p.2))
    else if c = '+' then (parseNat r).map (fun p => ((p.1 : Int), p.2))
    else (parseNat (c :: r)).map (fun p => ((p.1 : Int), p.2))

theorem parseNat_append (n : Nat) (r : Str) (hr : headNot Char.isDigit r = true) :
    parseNat (encNat n ++ r) = some (n, r) := by
  have hall := encNat_all_digits n
  have hne := encNat_ne_nil n
  simp only [parseNat, takeWhile_all_append Char.isDigit _ _ hall hr,
    dropWhile_all_append Char.isDigit _ _ hall hr, if_neg hne, decNat_encNat]

theorem encNat_head_digit (n : Nat) :
    ∃ c t, encNat n = c :: t ∧ c.isDigit = true := by
  cases h : encNat n with
  | nil => exact absurd h (encNat_ne_nil n)
  | cons c t =>
    refine ⟨c, t, rfl, ?_⟩
    exact encNat_all_digits n c (by rw [h]; simp)

theorem parseInt_append (n : Int) (r : Str) (hr : headNot Char.isDigit r = true) :
    parseInt (encInt n ++ r) = some (n, r) := by
  by_cases hn : n < 0
  · simp only [encInt, if_pos hn, List.cons_append, parseInt, if_pos rfl]
    rw [parseNat_append _ _ hr]
    have hv : -(n.natAbs : Int) = n := by omega
    show some (-(n.natAbs : Int), r) = some (n, r)
    rw [hv]
  · simp only [encInt, if_neg hn]
    obtain ⟨c, t, hct, hdig⟩ := encNat_head_digit n.toNat
    rw [hct]
    have hcm : c ≠ '-' := by intro h; subst h; exact absurd hdig (by decide)
    have hcp : c ≠ '+' := by intro h; subst h; exact absurd hdig (by decide)
    simp only [List.cons_append, parseInt, if_neg hcm, if_neg hcp]
    rw [← List.cons_append, ← hct, parseNat_append _ _ hr]
    have hv : ((n.toNat : Nat) : Int) = n := by omega
    show some (((n.toNat : Nat) : Int), r) = some (n, r)
    rw [hv]

/-- Exact-text integer parse.  Modelled from the spec: an `Integer` pattern
"matches iff the text parses as a base-10 integer with optional sign, no
trailing garbage". -/
def parseIntText (s : Str) : Option Int :=
  match parseInt s with
  | some (v, []) => some v
  | _ => none

theorem parseIntText_encInt (n : Int) : parseIntText (encInt n) = some n := by
  have := parseInt_append n [] rfl
  simp only [List.append_nil] at this
  simp [parseIntText, this]

/-- `std::istringstream` extraction of an `int`: skip leading whitespace,
read an optional sign and a maximal digit run, ignore the remainder
(embeds the `is >> value` step of the arithmetic `Convert::to_value`). -/
def readIntStream (s : Str) : Option Int :=
  let t := s.dropWhile isWs
  match parseInt t with
  | some (v, _) => some v
  | none => none

theorem digit_not_ws (c : Char) (h : c.isDigit = true) : isWs c = false := by
  cases hw : isWs c
  · rfl
  · exfalso
    simp only [isWs, Bool.or_eq_true, decide_eq_true_eq] at hw
    rcases hw with ((rfl | rfl) | rfl) | rfl <;> exact absurd h (by decide)

theorem encInt_head_not_ws (n : Int) : headNot isWs (encInt n) = true := by
  by_cases hn : n < 0
  · simp [encInt, if_pos hn, headNot, isWs]
  · simp only [encInt, if_neg hn]
    obtain ⟨c, t, hct, hdig⟩ := encNat_head_digit n.toNat
    rw [hct]
    simp only [headNot, Bool.not_eq_true']
    exact digit_not_ws c hdig

theorem dropWhile_headNot (p : Char → Bool) (s : Str) (h : headNot p s = true) :
    s.dropWhile p = s := by
  cases s with
  | nil => rfl
  | cons c t => simp [headNot] at h; simp [List.dropWhile, h]

theorem readIntStream_encInt (n : Int) : readIntStream (encInt n) = some n := by
  have h1 := dropWhile_headNot isWs (encInt n) (encInt_head_not_ws n)
  have h2 := parseInt_append n [] rfl
  simp only [List.append_nil] at h2
  simp [readIntStream, h1, h2]

/-! ### Splitting on a separator (`Utilities::split_string_list`) -/

/-- Does `t` occur as the leading characters of `s`? -/
def leadsWith : Str → Str → Bool
| [], _ => true
| _ :: _, [] => false
| t :: ts, c :: cs => t = c && leadsWith ts cs

/-- Split at the first occurrence of the separator, if any. -/
def splitOnce (sep : Str) : Str → Option (Str × Str)
| [] => none
| c :: rest =>
  if sep ≠ [] ∧ leadsWith sep (c :: rest) = true then
    some ([], (c :: rest).drop sep.length)
  else (splitOnce sep rest).map (fun p => (c :: p.1, p.2))

/-- Repeatedly split on the separator; `fuel` bounds the number of pieces. -/
def splitOnSepF (sep : Str) : Nat → Str → List Str
| 0, s => [s]
| fuel + 1, s =>
  match splitOnce sep s with
  | none => [s]
  | some (pre, post) => pre :: splitOnSepF sep fuel post

/-- All pieces of `s` delimited by the separator `sep`. -/
def splitOnSep (sep s : Str) : List Str := splitOnSepF sep (s.length + 1) s

/-- Modelled from the spec: `Utilities::split_string_list` (implementation
not under `src/`) splits the text on the separator and trims each token of
surrounding whitespace; the empty text yields no tokens ("An empty text
with `min==0` matches as zero elements"). -/
def splitStringList (s : Str) (sep : Str) : List Str :=
  if s = [] then [] else (splitOnSep sep s).map trim

/-- Join a token list placing `d` between consecutive tokens. -/
def intercalateSep (d : Str) : List Str → Str
| [] => []
| x :: xs =>
  match xs with
  | [] => x
  | _ :: _ => x ++ d ++ intercalateSep d xs

/-- The join loop of the `Convert<T>::to_string` bodies:
`s = vec[0]; for i in 1..: s += separator + " " + vec[i]`. -/
def joinCpp (sep : Str) : List Str → Str
| [] => []
| x :: xs => xs.foldl (fun acc v => acc ++ sep ++ [' '] ++ v) x

theorem foldl_join (d : Str) (xs : List Str) (a : Str) :
    xs.foldl (fun acc v => acc ++ d ++ v) a = intercalateSep d (a :: xs) := by
  induction xs generalizing a with
  | nil => rfl
  | cons y ys ih =>
    simp only [List.foldl_cons, ih]
    cases ys with
    | nil => simp [intercalateSep, List.append_assoc]
    | cons z zs => simp [intercalateSep, List.append_assoc]

theorem joinCpp_eq (sep : Str) (vec : List Str) :
    joinCpp sep vec = intercalateSep (sep ++ [' ']) vec := by
  cases vec with
  | nil => rfl
  | cons x xs =>
    have hfun : (fun (acc v : Str) => acc ++ sep ++ [' '] ++ v)
        = (fun acc v => acc ++ (sep ++ [' ']) ++ v) := by
      funext acc v; simp [List.append_assoc]
    simp only [joinCpp, hfun, foldl_join]

theorem splitOnce_cons_pos (c : Char) (a : Char) (t : Str) (ha : c = a) :
    splitOnce [c] (a :: t) = some ([], t) := by
  have hcond : (([c] : Str) ≠ [] ∧ leadsWith [c] (a :: t) = true) := by
    simp [leadsWith, ha]
  simp only [splitOnce]
  rw [if_pos hcond]
  rfl

theorem splitOnce_cons_neg (c : Char) (a : Char) (t : Str) (ha : ¬(c = a)) :
    splitOnce [c] (a :: t) = (splitOnce [c] t).map (fun p => (a :: p.1, p.2)) := by
  have hcond : ¬(([c] : Str) ≠ [] ∧ leadsWith [c] (a :: t) = true) := by
    simp [leadsWith, ha]
  simp only [splitOnce]
  rw [if_neg hcond]

theorem splitOnce_not_mem (c : Char) (s : Str) (h : c ∉ s) :
    splitOnce [c] s = none := by
  induction s with
  | nil => rfl
  | cons a t ih =>
    have hac : ¬(c = a) := fun he => h (by simp [he])
    rw [splitOnce_cons_neg c a t hac, ih (fun hm => h (by simp [hm]))]
    rfl

theorem splitOnce_append (c : Char) (pre post : Str) (h : c ∉ pre) :
    splitOnce [c] (pre ++ c :: post) = some (pre, post) := by
  induction pre with
  | nil => simpa using splitOnce_cons_pos c c post rfl
  | cons a t ih =>
    have hac : ¬(c = a) := fun he => h (by simp [he])
    rw [List.cons_append, splitOnce_cons_neg c a _ hac,
      ih (fun hm => h (by simp [hm]))]
    rfl

theorem splitOnSepF_not_mem (c : Char) (fuel : Nat) (s : Str) (h : c ∉ s) :
    splitOnSepF [c] fuel s = [s] := by
  cases fuel with
  | zero => rfl
  | succ f => simp [splitOnSepF, splitOnce_not_mem c s h]

/-! ### Trimming lemmas -/

theorem trim_nil : trim [] = [] := rfl

theorem trim_ws_cons (c : Char) (u : Str) (h : isWs c = true) :
    trim (c :: u) = trim u := by
  simp [trim, trimL, List.dropWhile_cons, h]

theorem trimL_headNot (s : Str) (h : headNot isWs s = true) : trimL s = s :=
  dropWhile_headNot isWs s h

theorem dropWhile_length_le (p : Char → Bool) (s : Str) :
    (s.dropWhile p).length ≤ s.length := by
  induction s with
  | nil => simp
  | cons a t ih =>
    by_cases h : p a = true
    · simp only [List.dropWhile_cons, h, if_true, List.length_cons]
      omega
    · simp [List.dropWhile_cons, h]

theorem trimL_length_le (s : Str) : (trimL s).length ≤ s.length :=
  dropWhile_length_le isWs s

theorem trimR_length_le (s : Str) : (trimR s).length ≤ s.length := by
  simp only [trimR, List.length_reverse]
  calc (trimL s.reverse).length ≤ s.reverse.length := trimL_length_le s.reverse
  _ = s.length := by simp

theorem trimL_of_length (s : Str) (h : (trimL s).length = s.length) :
    trimL s = s := by
  cases s with
  | nil => rfl
  | cons a t =>
    by_cases hw : isWs a = true
    · exfalso
      have : trimL (a :: t) = trimL t := by simp [trimL, List.dropWhile_cons, hw]
      rw [this] at h
      have := trimL_length_le t
      simp at h
      omega
    · simp [trimL, List.dropWhile_cons, hw]

theorem trim_eq_self_parts (s : Str) (h : trim s = s) :
    trimL s = s ∧ trimR s = s := by
  have h1 : (trim s).length = s.length := by rw [h]
  have h2 : (trim s).length ≤ (trimL s).length := trimR_length_le (trimL s)
  have h3 : (trimL s).length ≤ s.length := trimL_length_le s
  have h4 : (trimL s).length = s.length := by omega
  have h5 : trimL s = s := trimL_of_length s h4
  refine ⟨h5, ?_⟩
  have : trim s = trimR s := by rw [trim, h5]
  rw [← this, h]

theorem trimL_self_headNot (s : Str) (h : trimL s = s) :
    headNot isWs s = true := by
  cases s with
  | nil => rfl
  | cons a t =>
    by_cases hw : isWs a = true
    · exfalso
      have h2 : trimL (a :: t) = trimL t := by simp [trimL, List.dropWhile_cons, hw]
      rw [h2] at h
      have h3 := trimL_length_le t
      have h4 : (trimL t).length = t.length + 1 := by rw [h]; simp
      omega
    · simp [headNot]
      exact Bool.not_eq_true (isWs a) ▸ hw

theorem headNot_append (p : Char → Bool) (a b : Str) (ha : a ≠ []) :
    headNot p (a ++ b) = headNot p a := by
  cases a with
  | nil => exact absurd rfl ha
  | cons x t => rfl

theorem trimL_append (a b : Str) (ha : trimL a = a) (hane : a ≠ []) :
    trimL (a ++ b) = a ++ b := by
  apply trimL_headNot
  rw [headNot_append isWs a b hane]
  exact trimL_self_headNot a ha

theorem trimR_append (a b : Str) (hb : trimR b = b) (hbne : b ≠ []) :
    trimR (a ++ b) = a ++ b := by
  have hrev : trimL b.reverse = b.reverse := by
    have : (trimR b).reverse = b.reverse := by rw [hb]
    simpa [trimR] using this
  have hbne' : b.reverse ≠ [] := by simp [hbne]
  simp only [trimR, List.reverse_append]
  rw [trimL_append b.reverse a.reverse hrev hbne']
  simp

theorem trim_eq_of_no_ws (v : Str) (h : ∀ x ∈ v, isWs x = false) : trim v = v := by
  have hL : trimL v = v := by
    apply trimL_headNot
    cases v with
    | nil => rfl
    | cons a t => simp [headNot, h a (by simp)]
  have hR : trimR v = v := by
    have hrev : trimL v.reverse = v.reverse := by
      apply trimL_headNot
      cases hv : v.reverse with
      | nil => rfl
      | cons a t =>
        have : a ∈ v := by
          rw [← List.mem_reverse, hv]; simp
        simp [headNot, h a this]
    simp [trimR, hrev]
  rw [trim, hL, hR]

/-! ### Joining and splitting are mutually inverse on clean tokens -/

theorem intercalate_cons₂ (d : Str) (t u : Str) (us : List Str) :
    intercalateSep d (t :: u :: us) = t ++ d ++ intercalateSep d (u :: us) := rfl

theorem intercalate_ne_nil (d : Str) (hd : d ≠ []) (v : Str) (vs : List Str)
    (h : v ≠ [] ∨ vs ≠ []) : intercalateSep d (v :: vs) ≠ [] := by
  cases vs with
  | nil =>
    rcases h with h | h
    · simpa [intercalateSep] using h
    · exact absurd rfl h
  | cons u us =>
    rw [intercalate_cons₂]
    intro hcontr
    rcases List.append_eq_nil.mp hcontr with ⟨h1, _⟩
    rcases List.append_eq_nil.mp h1 with ⟨_, h3⟩
    exact hd h3

theorem intercalate_eq_append_last (d : Str) (v : Str) (vs : List Str) :
    ∃ pre last, intercalateSep d (v :: vs) = pre ++ last ∧ last ∈ v :: vs := by
  induction vs generalizing v with
  | nil => exact ⟨[], v, by simp [intercalateSep], by simp⟩
  | cons u us ih =>
    obtain ⟨pre, last, heq, hmem⟩ := ih u
    refine ⟨v ++ d ++ pre, last, ?_, ?_⟩
    · rw [intercalate_cons₂, heq]
      simp [List.append_assoc]
    · simp only [List.mem_cons] at hmem ⊢
      tauto

theorem trim_intercalate (d : Str) (v : Str) (vs : List Str)
    (hmem : ∀ u ∈ v :: vs, trim u = u ∧ u ≠ []) :
    trim (intercalateSep d (v :: vs)) = intercalateSep d (v :: vs) := by
  have hv := hmem v (by simp)
  have hL : trimL (intercalateSep d (v :: vs)) = intercalateSep d (v :: vs) := by
    cases vs with
    | nil =>
      show trimL v = v
      exact (trim_eq_self_parts v hv.1).1
    | cons u us =>
      rw [intercalate_cons₂, List.append_assoc]
      exact trimL_append v _ (trim_eq_self_parts v hv.1).1 hv.2
  have hR : trimR (intercalateSep d (v :: vs)) = intercalateSep d (v :: vs) := by
    obtain ⟨pre, last, heq, hlmem⟩ := intercalate_eq_append_last d v vs
    have hl := hmem last hlmem
    rw [heq]
    exact trimR_append pre last (trim_eq_self_parts last hl.1).2 hl.2
  rw [trim, hL, hR]

theorem splitF_join_spaced (c : Char) (hcsp : ¬(c = ' ')) (toks : List Str) :
    ∀ (t pre : Str) (fuel : Nat),
      (∀ u ∈ t :: toks, c ∉ u) → c ∉ pre → toks.length ≤ fuel →
      splitOnSepF [c] fuel (pre ++ intercalateSep [c, ' '] (t :: toks))
        = (pre ++ t) :: toks.map (fun u => ' ' :: u) := by
  induction toks with
  | nil =>
    intro t pre fuel hmem hpre _
    have h1 : intercalateSep [c, ' '] [t] = t := rfl
    rw [h1]
    simp only [List.map_nil]
    apply splitOnSepF_not_mem
    intro hm
    rcases List.mem_append.mp hm with h | h
    · exact hpre h
    · exact hmem t (by simp) h
  | cons t2 ts ih =>
    intro t pre fuel hmem hpre hfuel
    cases fuel with
    | zero => simp at hfuel
    | succ f =>
      rw [intercalate_cons₂]
      have hassoc : pre ++ (t ++ [c, ' '] ++ intercalateSep [c, ' '] (t2 :: ts))
          = (pre ++ t) ++ c :: (' ' :: intercalateSep [c, ' '] (t2 :: ts)) := by
        simp [List.append_assoc]
      rw [hassoc]
      have hnot : c ∉ pre ++ t := by
        intro hm; rcases List.mem_append.mp hm with h | h
        · exact hpre h
        · exact hmem t (by simp) h
      simp only [splitOnSepF, splitOnce_append c _ _ hnot]
      have h2 : (' ' :: intercalateSep [c, ' '] (t2 :: ts))
          = [' '] ++ intercalateSep [c, ' '] (t2 :: ts) := rfl
      rw [h2, ih t2 [' '] f (fun u hu => hmem u (List.mem_cons_of_mem _ hu))
        (by simp [hcsp]) (by simpa using Nat.le_of_succ_le_succ hfuel)]
      simp

theorem intercalate_spaced_length (c : Char) (v : Str) (vs : List Str) :
    vs.length ≤ (intercalateSep [c, ' '] (v :: vs)).length := by
  induction vs generalizing v with
  | nil => simp
  | cons u us ih =>
    rw [intercalate_cons₂]
    have := ih u
    simp only [List.length_append, List.length_cons]
    simp at this ⊢
    omega

theorem splitStringList_joinCpp (c : Char) (hcsp : c ≠ ' ') (vec : List Str)
    (hmem : ∀ v ∈ vec, c ∉ v ∧ trim v = v) (hone : vec ≠ [[]]) :
    splitStringList (joinCpp [c] vec) [c] = vec := by
  cases vec with
  | nil => rfl
  | cons v vs =>
    rw [joinCpp_eq]
    have hd : ([c] : Str) ++ [' '] = [c, ' '] := rfl
    rw [hd]
    have hjne : intercalateSep [c, ' '] (v :: vs) ≠ [] := by
      apply intercalate_ne_nil _ (by simp)
      cases vs with
      | nil =>
        left
        intro hveq
        exact hone (by rw [hveq])
      | cons u us => right; simp
    rw [splitStringList, if_neg hjne, splitOnSep]
    have hmem' : ∀ u ∈ v :: vs, c ∉ u := fun u hu => (hmem u hu).1
    have hfuel : vs.length ≤ (intercalateSep [c, ' '] (v :: vs)).length + 1 := by
      have := intercalate_spaced_length c v vs
      omega
    have hsplit := splitF_join_spaced c hcsp vs v []
      ((intercalateSep [c, ' '] (v :: vs)).length + 1) hmem' (by simp) hfuel
    rw [List.nil_append] at hsplit
    rw [hsplit]
    simp only [List.nil_append, List.map_cons, List.map_map]
    congr 1
    · exact (hmem v (by simp)).2
    · have hpt : ∀ u ∈ vs, (trim ∘ fun u => ' ' :: u) u = id u := by
        intro u hu
        show trim (' ' :: u) = u
        rw [trim_ws_cons ' ' u (by decide)]
        exact (hmem u (by simp [hu])).2
      rw [List.map_congr_left hpt, List.map_id]

theorem splitStringList_pair (c : Char) (a b : Str)
    (hca : c ∉ a) (hcb : c ∉ b) (hta : trim a = a) (htb : trim b = b) :
    splitStringList (a ++ c :: b) [c] = [a, b] := by
  have hne : a ++ c :: b ≠ [] := by simp
  rw [splitStringList, if_neg hne, splitOnSep]
  simp only [splitOnSepF, splitOnce_append c a b hca]
  rw [splitOnSepF_not_mem c _ b hcb]
  simp [hta, htb]

/-! ### Character classes of rendered integers -/

theorem encInt_chars (n : Int) : ∀ x ∈ encInt n, x.isDigit = true ∨ x = '-' := by
  intro x hx
  by_cases hn : n < 0
  · simp only [encInt, if_pos hn, List.mem_cons] at hx
    rcases hx with h | h
    · right; exact h
    · left; exact encNat_all_digits _ x h
  · simp only [encInt, if_neg hn] at hx
    left; exact encNat_all_digits _ x hx

theorem encInt_no_ws (n : Int) : ∀ x ∈ encInt n, isWs x = false := by
  intro x hx
  rcases encInt_chars n x hx with h | h
  · exact digit_not_ws x h
  · subst h; rfl

theorem trim_encInt (n : Int) : trim (encInt n) = encInt n :=
  trim_eq_of_no_ws _ (encInt_no_ws n)

theorem encInt_ne_nil (n : Int) : encInt n ≠ [] := by
  by_cases hn : n < 0
  · simp [encInt, if_pos hn]
  · simp only [encInt, if_neg hn]
    exact encNat_ne_nil _

theorem not_mem_encInt (n : Int) (c : Char) (hc : c.isDigit = false)
    (hcm : c ≠ '-') : c ∉ encInt n := by
  intro hm
  rcases encInt_chars n c hm with h | h
  · rw [h] at hc; cases hc
  · exact hcm h

/-! ### The pattern variants (`Patterns` namespace) -/

/-- `Patterns::FileName::FileType`: intent flag for file name patterns. -/
inductive FileType where
| input
| output
deriving DecidableEq

/-- The closed family of pattern variants.  Constructor data mirrors the
private members declared in the header: `Integer` and `Double` carry
inclusive bounds, `Selection` and `MultipleSelection` the normalized option
sequence, `List` and `Map` their owned sub-patterns, element-count bounds
and separators, `FileName` its intent flag.  `Double` bounds are modelled
as exact rationals. -/
inductive Pattern where
| Integer (lower_bound upper_bound : Int)
| Double (lower_bound upper_bound : ℚ)
| Selection (options : List Str)
| MultipleSelection (options : List Str)
| Bool
| Anything
| FileName (file_type : FileType)
| DirectoryName
| List (base : Pattern) (min_elements max_elements : Nat) (separator : Str)
| Map (key_pattern value_pattern : Pattern) (min_elements max_elements : Nat)
      (separator key_value_separator : Str)
deriving DecidableEq

/-- `Patterns::Integer::min_int_value` (`std::numeric_limits<int>::min()`). -/
def minIntValue : Int := -2147483648

/-- `Patterns::Integer::max_int_value` (`std::numeric_limits<int>::max()`). -/
def maxIntValue : Int := 2147483647

/-- `Patterns::List::max_int_value` and `Patterns::Map::max_int_value`
(`std::numeric_limits<unsigned int>::max()`). -/
def listMaxIntValue : Nat := 4294967295

/-- Full-string floating point literal parse, with exact rational value.
Modelled from the spec: `Double` parses "floating-point syntax (optional
sign, optional fraction, optional exponent), full-string match required". -/
def parseFloatText (s : Str) : Option ℚ :=
  let sgnr : ℚ × Str :=
    match s with
    | '-' :: r => (-1, r)
    | '+' :: r => (1, r)
    | _ => (1, s)
  let r0 := sgnr.2
  let ip := r0.takeWhile Char.isDigit
  let r1 := r0.dropWhile Char.isDigit
  let fpr : Str × Str :=
    match r1 with
    | '.' :: r => (r.takeWhile Char.isDigit, r.dropWhile Char.isDigit)
    | _ => ([], r1)
  let fp := fpr.1
  let r2 := fpr.2
  if ip = [] ∧ fp = [] then none
  else
    let mant : ℚ := (decNat ip : ℚ) + (decNat fp : ℚ) / ((10 : ℚ) ^ fp.length)
    match r2 with
    | [] => some (sgnr.1 * mant)
    | e :: r3 =>
      if e = 'e' ∨ e = 'E' then
        match parseInt r3 with
        | some (ex, []) => some (sgnr.1 * mant * (10 : ℚ) ^ ex)
        | _ => none
      else none

/-- Modelled from the spec: the `match` member of each pattern variant
(implemented in the `.cc` translation unit, not under `src/`):
`Integer`/`Double` accept exactly a signed numeral lying in the inclusive
bounds when the bounds are ordered, and are unrestricted when
`upper_bound < lower_bound`; `Selection` accepts exactly one option;
`List` splits on its separator and checks the count and every trimmed
token; `Map` additionally requires every entry to split into exactly two
parts on the key/value separator; `MultipleSelection` accepts a
comma-separated, possibly empty, repeatable sequence of options; `Bool`
accepts `true`/`false`; `Anything`, `FileName` and `DirectoryName` accept
every string. -/
def pmatch : Pattern → Str → Bool
| .Integer l u, s =>
  (match parseIntText s with
   | none => false
   | some v => if l ≤ u then decide (l ≤ v) && decide (v ≤ u) else true)
| .Double l u, s =>
  (match parseFloatText s with
   | none => false
   | some q => if l ≤ u then decide (l ≤ q) && decide (q ≤ u) else true)
| .Selection opts, s => decide (s ∈ opts)
| .MultipleSelection opts, s =>
  (splitStringList s [',']).all (fun t => decide (t ∈ opts))
| .Bool, s => decide (s = chars "true") || decide (s = chars "false")
| .Anything, _ => true
| .FileName _, _ => true
| .DirectoryName, _ => true
| .List base mn mx sep, s =>
  let toks := splitStringList s sep
  decide (mn ≤ toks.length) && decide (toks.length ≤ mx)
    && toks.all (fun t => pmatch base t)
| .Map kp vp mn mx sep kvsep, s =>
  let es := splitStringList s sep
  decide (mn ≤ es.length) && decide (es.length ≤ mx)
    && es.all (fun e =>
        match splitStringList e kvsep with
        | [a, b] => pmatch kp a && pmatch vp b
        | _ => false)

/-! ### Canonical Machine descriptions and the factory -/

def tagInteger : Str := chars "[Integer "
def tagDouble : Str := chars "[Double "
def tagSelection : Str := chars "[Selection "
def tagMultipleSelection : Str := chars "[MultipleSelection "
def tagBool : Str := chars "[Bool]"
def tagAnything : Str := chars "[Anything]"
def tagFileName : Str := chars "[FileName "
def tagDirectoryName : Str := chars "[DirectoryName]"
def tagList : Str := chars "[List "
def tagMap : Str := chars "[Map "

/-- Exact rendering of a rational `Double` bound. -/
def encQ (q : ℚ) : Str := encInt q.num ++ '/' :: encNat q.den

/-- Rendering of the `FileName` intent flag. -/
def descFileType : FileType → Str
| .input => chars "input]"
| .output => chars "output]"

/-- Modelled from the spec: `description(OutputStyle::Machine)` (the
variant bodies are in the `.cc` translation unit, not under `src/`).  Per
spec each description "begins with a unique bracketed tag per variant,
followed by variant-specific bound/option/sub-pattern text in a fixed
layout"; unrestricted bounds "serialize using integer min/max sentinels so
round-trip reconstruction is exact". -/
def desc : Pattern → Str
| .Integer l u => tagInteger ++ encInt l ++ [' '] ++ encInt u ++ [']']
| .Double l u => tagDouble ++ encQ l ++ [' '] ++ encQ u ++ [']']
| .Selection opts => tagSelection ++ intercalateSep ['|'] opts ++ [']']
| .MultipleSelection opts => tagMultipleSelection ++ intercalateSep ['|'] opts ++ [']']
| .Bool => tagBool
| .Anything => tagAnything
| .FileName ft => tagFileName ++ descFileType ft
| .DirectoryName => tagDirectoryName
| .List base mn mx sep =>
  tagList ++ encNat mn ++ [' '] ++ encNat mx ++ [' ', '<'] ++ sep
    ++ ['>', ' '] ++ desc base ++ [']']
| .Map kp vp mn mx sep kvsep =>
  tagMap ++ encNat mn ++ [' '] ++ encNat mx ++ [' ', '<'] ++ sep
    ++ ['>', ' ', '<'] ++ kvsep ++ ['>', ' ']
    ++ desc kp ++ [' '] ++ desc vp ++ [']']

/-- Construction-time well-formedness of a pattern's stored data: option
sequences are non-empty normalized tokens free of the delimiters of the
description grammar ("surrounding spaces around `|` are trimmed during
construction", "commas are not allowed inside the values"), and separators
do not contain the bracket that closes them in the description. -/
def wf : Pattern → Bool
| .Integer _ _ => true
| .Double _ _ => true
| .Selection opts =>
  decide (opts ≠ []) && opts.all (fun o =>
    decide (o ≠ []) && decide ('|' ∉ o) && decide (']' ∉ o))
| .MultipleSelection opts =>
  decide (opts ≠ []) && opts.all (fun o =>
    decide (o ≠ []) && decide ('|' ∉ o) && decide (']' ∉ o) && decide (',' ∉ o))
| .Bool => true
| .Anything => true
| .FileName _ => true
| .DirectoryName => true
| .List base _ _ sep => decide ('>' ∉ sep) && wf base
| .Map kp vp _ _ sep kvsep =>
  decide ('>' ∉ sep) && decide ('>' ∉ kvsep) && wf kp && wf vp

/-- Nesting depth of a pattern: drives the fuel of the description parser. -/
def depthP : Pattern → Nat
| .Integer _ _ => 0
| .Double _ _ => 0
| .Selection _ => 0
| .MultipleSelection _ => 0
| .Bool => 0
| .Anything => 0
| .FileName _ => 0
| .DirectoryName => 0
| .List base _ _ _ => depthP base + 1
| .Map kp vp _ _ _ _ => max (depthP kp) (depthP vp) + 1

/-- Consume an expected literal token from the head of the input. -/
def eat : Str → Str → Option Str
| [], s => some s
| _ :: _, [] => none
| t :: ts, c :: cs => if t = c then eat ts cs else none

theorem eat_append (t r : Str) : eat t (t ++ r) = some r := by
  induction t with
  | nil => rfl
  | cons a ts ih => simp [eat, ih]

theorem eat_one (c : Char) (r : Str) : eat [c] (c :: r) = some r := by
  simp [eat]

theorem eat_two (c d : Char) (r : Str) : eat [c, d] (c :: d :: r) = some r := by
  simp [eat]

/-- Do the two strings disagree at some position inside both? -/
def stops : Str → Str → Bool
| [], _ => false
| _ :: _, [] => false
| t :: ts, c :: cs => if t = c then stops ts cs else true

theorem eat_none_of_stops (t p r : Str) (h : stops t p = true) :
    eat t (p ++ r) = none := by
  induction t generalizing p with
  | nil => simp [stops] at h
  | cons a ts ih =>
    cases p with
    | nil => simp [stops] at h
    | cons c cs =>
      by_cases hac : a = c
      · subst hac
        simp only [stops, if_pos rfl] at h
        simp only [List.cons_append, eat, if_pos rfl]
        exact ih cs h
      · simp only [List.cons_append, eat, if_neg hac]

/-- Take the characters strictly before the first `stop` and consume the
`stop` itself. -/
def parseUntil (stop : Char) (cs : Str) : Option (Str × Str) :=
  match cs.dropWhile (fun c => !(decide (c = stop))) with
  | [] => none
  | _ :: r => some (cs.takeWhile (fun c => !(decide (c = stop))), r)

theorem parseUntil_append (stop : Char) (body r : Str) (h : stop ∉ body) :
    parseUntil stop (body ++ stop :: r) = some (body, r) := by
  have hall : ∀ c ∈ body, (!(decide (c = stop))) = true := by
    intro c hc
    simp only [Bool.not_eq_true', decide_eq_false_iff_not]
    intro he; subst he; exact h hc
  have hhead : headNot (fun c => !(decide (c = stop))) (stop :: r) = true := by
    simp [headNot]
  rw [parseUntil, dropWhile_all_append _ _ _ hall hhead,
    takeWhile_all_append _ _ _ hall hhead]

/-- Read a rational bound in the exact `num/den` layout of `encQ`. -/
def parseQ (cs : Str) : Option (ℚ × Str) :=
  match parseInt cs with
  | none => none
  | some (num, r1) =>
    match r1 with
    | '/' :: r2 =>
      (match parseNat r2 with
       | some (den, r3) => some ((num : ℚ) / (den : ℚ), r3)
       | none => none)
    | _ => none

theorem parseQ_append (q : ℚ) (r : Str) (hr : headNot Char.isDigit r = true) :
    parseQ (encQ q ++ r) = some (q, r) := by
  have h1 : encQ q ++ r = encInt q.num ++ ('/' :: (encNat q.den ++ r)) := by
    simp [encQ, List.append_assoc]
  have h2 : headNot Char.isDigit ('/' :: (encNat q.den ++ r)) = true := rfl
  rw [h1]
  simp only [parseQ, parseInt_append q.num _ h2, parseNat_append q.den r hr]
  have hq : ((q.num : ℚ) / ((q.den : Nat) : ℚ)) = q := Rat.num_div_den q
  rw [hq]

/-! ### The per-variant description parsers (`Patterns::*::create`) -/

def brInteger (cs : Str) : Option (Pattern × Str) :=
  match eat tagInteger cs with
  | none => none
  | some r1 =>
    match parseInt r1 with
    | none => none
    | some (l, r2) =>
      match eat [' '] r2 with
      | none => none
      | some r3 =>
        match parseInt r3 with
        | none => none
        | some (u, r4) =>
          match eat [']'] r4 with
          | none => none
          | some r5 => some (.Integer l u, r5)

def brDouble (cs : Str) : Option (Pattern × Str) :=
  match eat tagDouble cs with
  | none => none
  | some r1 =>
    match parseQ r1 with
    | none => none
    | some (l, r2) =>
      match eat [' '] r2 with
      | none => none
      | some r3 =>
        match parseQ r3 with
        | none => none
        | some (u, r4) =>
          match eat [']'] r4 with
          | none => none
          | some r5 => some (.Double l u, r5)

def brSelection (cs : Str) : Option (Pattern × Str) :=
  match eat tagSelection cs with
  | none => none
  | some r1 =>
    match parseUntil ']' r1 with
    | none => none
    | some (body, r2) => some (.Selection (splitOnSep ['|'] body), r2)

def brMultipleSelection (cs : Str) : Option (Pattern × Str) :=
  match eat tagMultipleSelection cs with
  | none => none
  | some r1 =>
    match parseUntil ']' r1 with
    | none => none
    | some (body, r2) => some (.MultipleSelection (splitOnSep ['|'] body), r2)

def brBool (cs : Str) : Option (Pattern × Str) :=
  (eat tagBool cs).map (fun r => (Pattern.Bool, r))

def brAnything (cs : Str) : Option (Pattern × Str) :=
  (eat tagAnything cs).map (fun r => (Pattern.Anything, r))

def brFileName (cs : Str) : Option (Pattern × Str) :=
  match eat tagFileName cs with
  | none => none
  | some r1 =>
    match eat (chars "input]") r1 with
    | some r2 => some (.FileName .input, r2)
    | none =>
      match eat (chars "output]") r1 with
      | some r2 => some (.FileName .output, r2)
      | none => none

def brDirectoryName (cs : Str) : Option (Pattern × Str) :=
  (eat tagDirectoryName cs).map (fun r => (Pattern.DirectoryName, r))

def brList (recur : Str → Option (Pattern × Str)) (cs : Str) :
    Option (Pattern × Str) :=
  match eat tagList cs with
  | none => none
  | some r1 =>
    match parseNat r1 with
    | none => none
    | some (mn, r2) =>
      match eat [' '] r2 with
      | none => none
      | some r3 =>
        match parseNat r3 with
        | none => none
        | some (mx, r4) =>
          match eat [' ', '<'] r4 with
          | none => none
          | some r5 =>
            match parseUntil '>' r5 with
            | none => none
            | some (sep, r6) =>
              match eat [' '] r6 with
              | none => none
              | some r7 =>
                match recur r7 with
                | none => none
                | some (base, r8) =>
                  match eat [']'] r8 with
                  | none => none
                  | some r9 => some (.List base mn mx sep, r9)

def brMap (recur : Str → Option (Pattern × Str)) (cs : Str) :
    Option (Pattern × Str) :=
  match eat tagMap cs with
  | none => none
  | some r1 =>
    match parseNat r1 with
    | none => none
    | some (mn, r2) =>
      match eat [' '] r2 with
      | none => none
      | some r3 =>
        match parseNat r3 with
        | none => none
        | some (mx, r4) =>
          match eat [' ', '<'] r4 with
          | none => none
          | some r5 =>
            match parseUntil '>' r5 with
            | none => none
            | some (sep, r6) =>
              match eat [' ', '<'] r6 with
              | none => none
              | some r7 =>
                match parseUntil '>' r7 with
                | none => none
                | some (kvsep, r8) =>
                  match eat [' '] r8 with
                  | none => none
                  | some r9 =>
                    match recur r9 with
                    | none => none
                    | some (kp, r10) =>
                      match eat [' '] r10 with
                      | none => none
                      | some r11 =>
                        match recur r11 with
                        | none => none
                        | some (vp, r12) =>
                          match eat [']'] r12 with
                          | none => none
                          | some r13 => some (.Map kp vp mn mx sep kvsep, r13)

/-- The tag-dispatch loop of the factory: try each variant's `create` in
turn; `fuel` bounds the nesting depth of sub-pattern descriptions. -/
def parsePattern : Nat → Str → Option (Pattern × Str)
| 0, _ => none
| fuel + 1, cs =>
  brInteger cs <|> brDouble cs <|> brSelection cs <|> brMultipleSelection cs
    <|> brBool cs <|> brAnything cs <|> brFileName cs <|> brDirectoryName cs
    <|> brList (parsePattern fuel) cs <|> brMap (parsePattern fuel) cs

/-- Modelled from the spec: `Patterns::pattern_factory` (implementation not
under `src/`) "inspects only the description's leading tag, dispatches to
that variant's own parser, and fails (returns no match / null) if no tag
matches, never guessing". -/
def pattern_factory (s : Str) : Option Pattern :=
  match parsePattern (s.length + 1) s with
  | some (p, []) => some p
  | _ => none

/-! ### Each branch succeeds on its own variant's description -/

theorem not_mem_intercalate (c : Char) (d : Str) (opts : List Str)
    (hd : c ∉ d) (h : ∀ o ∈ opts, c ∉ o) : c ∉ intercalateSep d opts := by
  induction opts with
  | nil => simp [intercalateSep]
  | cons o os ih =>
    cases os with
    | nil => exact h o (by simp)
    | cons o2 os2 =>
      rw [intercalate_cons₂]
      intro hm
      rcases List.mem_append.mp hm with hm1 | hm1
      · rcases List.mem_append.mp hm1 with hm2 | hm2
        · exact h o (by simp) hm2
        · exact hd hm2
      · exact ih (fun u hu => h u (List.mem_cons_of_mem _ hu)) hm1

theorem splitF_intercalate (c : Char) (os : List Str) :
    ∀ (o pre : Str) (fuel : Nat), (∀ u ∈ o :: os, c ∉ u) → c ∉ pre →
      os.length ≤ fuel →
      splitOnSepF [c] fuel (pre ++ intercalateSep [c] (o :: os)) = (pre ++ o) :: os := by
  induction os with
  | nil =>
    intro o pre fuel hmem hpre _
    have h1 : intercalateSep [c] [o] = o := rfl
    rw [h1]
    apply splitOnSepF_not_mem
    intro hm
    rcases List.mem_append.mp hm with h | h
    · exact hpre h
    · exact hmem o (by simp) h
  | cons o2 os2 ih =>
    intro o pre fuel hmem hpre hfuel
    cases fuel with
    | zero => simp at hfuel
    | succ f =>
      rw [intercalate_cons₂]
      have hassoc : pre ++ (o ++ [c] ++ intercalateSep [c] (o2 :: os2))
          = (pre ++ o) ++ c :: intercalateSep [c] (o2 :: os2) := by
        simp [List.append_assoc]
      rw [hassoc]
      have hnot : c ∉ pre ++ o := by
        intro hm; rcases List.mem_append.mp hm with h | h
        · exact hpre h
        · exact hmem o (by simp) h
      simp only [splitOnSepF, splitOnce_append c _ _ hnot]
      have hX : intercalateSep [c] (o2 :: os2) = [] ++ intercalateSep [c] (o2 :: os2) := rfl
      rw [hX, ih o2 [] f (fun u hu => hmem u (List.mem_cons_of_mem _ hu))
        (by simp) (by simpa using Nat.le_of_succ_le_succ hfuel)]
      simp

theorem intercalate_length_ge (c : Char) (o : Str) (os : List Str) :
    os.length ≤ (intercalateSep [c] (o :: os)).length := by
  induction os generalizing o with
  | nil => simp
  | cons o2 os2 ih =>
    rw [intercalate_cons₂]
    have := ih o2
    simp only [List.length_append, List.length_cons] at this ⊢
    simp at this ⊢
    omega

theorem splitOnSep_intercalate (c : Char) (o : Str) (os : List Str)
    (h : ∀ u ∈ o :: os, c ∉ u) :
    splitOnSep [c] (intercalateSep [c] (o :: os)) = o :: os := by
  rw [splitOnSep]
  have hfuel : os.length ≤ (intercalateSep [c] (o :: os)).length + 1 := by
    have := intercalate_length_ge c o os
    omega
  have hres := splitF_intercalate c os o []
    ((intercalateSep [c] (o :: os)).length + 1) h (by simp) hfuel
  rw [List.nil_append] at hres
  rw [hres, List.nil_append]

theorem brInteger_desc (l u : Int) (rest : Str) :
    brInteger (desc (.Integer l u) ++ rest) = some (.Integer l u, rest) := by
  have hform : desc (.Integer l u) ++ rest
      = tagInteger ++ (encInt l ++ (' ' :: (encInt u ++ (']' :: rest)))) := by
    simp [desc, List.append_assoc]
  have hd1 : headNot Char.isDigit (' ' :: (encInt u ++ (']' :: rest))) = true := rfl
  have hd2 : headNot Char.isDigit (']' :: rest) = true := rfl
  rw [hform]
  simp only [brInteger, eat_append, parseInt_append l _ hd1, eat_one,
    parseInt_append u _ hd2]

theorem brDouble_desc (l u : ℚ) (rest : Str) :
    brDouble (desc (.Double l u) ++ rest) = some (.Double l u, rest) := by
  have hform : desc (.Double l u) ++ rest
      = tagDouble ++ (encQ l ++ (' ' :: (encQ u ++ (']' :: rest)))) := by
    simp [desc, encQ, List.append_assoc]
  have hd1 : headNot Char.isDigit (' ' :: (encQ u ++ (']' :: rest))) = true := rfl
  have hd2 : headNot Char.isDigit (']' :: rest) = true := rfl
  rw [hform]
  simp only [brDouble, eat_append, parseQ_append l _ hd1, eat_one,
    parseQ_append u _ hd2]

theorem wf_selection_parts (opts : List Str)
    (hwf : wf (.Selection opts) = true) :
    opts ≠ [] ∧ ∀ o ∈ opts, o ≠ [] ∧ '|' ∉ o ∧ ']' ∉ o := by
  simp only [wf, Bool.and_eq_true, decide_eq_true_eq, List.all_eq_true] at hwf
  exact ⟨hwf.1, fun o ho => ⟨(hwf.2 o ho).1.1, (hwf.2 o ho).1.2, (hwf.2 o ho).2⟩⟩

theorem wf_mselection_parts (opts : List Str)
    (hwf : wf (.MultipleSelection opts) = true) :
    opts ≠ [] ∧ ∀ o ∈ opts, o ≠ [] ∧ '|' ∉ o ∧ ']' ∉ o := by
  simp only [wf, Bool.and_eq_true, decide_eq_true_eq, List.all_eq_true] at hwf
  exact ⟨hwf.1, fun o ho => ⟨(hwf.2 o ho).1.1.1, (hwf.2 o ho).1.1.2, (hwf.2 o ho).1.2⟩⟩

theorem brSelection_desc (opts : List Str) (rest : Str)
    (hwf : wf (.Selection opts) = true) :
    brSelection (desc (.Selection opts) ++ rest) = some (.Selection opts, rest) := by
  obtain ⟨hne, hall⟩ := wf_selection_parts opts hwf
  have hform : desc (.Selection opts) ++ rest
      = tagSelection ++ (intercalateSep ['|'] opts ++ (']' :: rest)) := by
    simp [desc, List.append_assoc]
  have hnomem : ']' ∉ intercalateSep ['|'] opts :=
    not_mem_intercalate ']' ['|'] opts (by decide) (fun o ho => (hall o ho).2.2)
  rw [hform]
  simp only [brSelection, eat_append, parseUntil_append ']' _ rest hnomem]
  cases opts with
  | nil => exact absurd rfl hne
  | cons o os =>
    rw [splitOnSep_intercalate '|' o os (fun u hu => (hall u hu).2.1)]

theorem brMultipleSelection_desc (opts : List Str) (rest : Str)
    (hwf : wf (.MultipleSelection opts) = true) :
    brMultipleSelection (desc (.MultipleSelection opts) ++ rest)
      = some (.MultipleSelection opts, rest) := by
  obtain ⟨hne, hall⟩ := wf_mselection_parts opts hwf
  have hform : desc (.MultipleSelection opts) ++ rest
      = tagMultipleSelection ++ (intercalateSep ['|'] opts ++ (']' :: rest)) := by
    simp [desc, List.append_assoc]
  have hnomem : ']' ∉ intercalateSep ['|'] opts :=
    not_mem_intercalate ']' ['|'] opts (by decide) (fun o ho => (hall o ho).2.2)
  rw [hform]
  simp only [brMultipleSelection, eat_append, parseUntil_append ']' _ rest hnomem]
  cases opts with
  | nil => exact absurd rfl hne
  | cons o os =>
    rw [splitOnSep_intercalate '|' o os (fun u hu => (hall u hu).2.1)]

theorem brBool_desc (rest : Str) :
    brBool (desc .Bool ++ rest) = some (.Bool, rest) := by
  have hform : desc Pattern.Bool ++ rest = tagBool ++ rest := rfl
  rw [hform]
  simp [brBool, eat_append]

theorem brAnything_desc (rest : Str) :
    brAnything (desc .Anything ++ rest) = some (.Anything, rest) := by
  have hform : desc Pattern.Anything ++ rest = tagAnything ++ rest := rfl
  rw [hform]
  simp [brAnything, eat_append]

theorem brDirectoryName_desc (rest : Str) :
    brDirectoryName (desc .DirectoryName ++ rest) = some (.DirectoryName, rest) := by
  have hform : desc Pattern.DirectoryName ++ rest = tagDirectoryName ++ rest := rfl
  rw [hform]
  simp [brDirectoryName, eat_append]

theorem brFileName_desc (ft : FileType) (rest : Str) :
    brFileName (desc (.FileName ft) ++ rest) = some (.FileName ft, rest) := by
  cases ft with
  | input =>
    have hform : desc (Pattern.FileName .input) ++ rest
        = tagFileName ++ (chars "input]" ++ rest) := by
      simp [desc, descFileType, List.append_assoc]
    rw [hform]
    simp only [brFileName, eat_append]
  | output =>
    have hform : desc (Pattern.FileName .output) ++ rest
        = tagFileName ++ (chars "output]" ++ rest) := by
      simp [desc, descFileType, List.append_assoc]
    rw [hform]
    have hno : eat (chars "input]") (chars "output]" ++ rest) = none :=
      eat_none_of_stops _ _ _ (by decide)
    simp only [brFileName, eat_append, hno]

theorem brList_desc (recur : Str → Option (Pattern × Str)) (base : Pattern)
    (mn mx : Nat) (sep rest : Str) (hsep : '>' ∉ sep)
    (hrec : ∀ r, recur (desc base ++ r) = some (base, r)) :
    brList recur (desc (.List base mn mx sep) ++ rest)
      = some (.List base mn mx sep, rest) := by
  have hform : desc (.List base mn mx sep) ++ rest
      = tagList ++ (encNat mn ++ (' ' :: (encNat mx ++ (' ' :: '<' ::
          (sep ++ ('>' :: ' ' :: (desc base ++ (']' :: rest)))))))) := by
    simp [desc, List.append_assoc]
  have hd1 : headNot Char.isDigit (' ' :: (encNat mx ++ (' ' :: '<' ::
      (sep ++ ('>' :: ' ' :: (desc base ++ (']' :: rest))))))) = true := rfl
  have hd2 : headNot Char.isDigit (' ' :: '<' ::
      (sep ++ ('>' :: ' ' :: (desc base ++ (']' :: rest))))) = true := rfl
  rw [hform]
  simp only [brList, eat_append, parseNat_append mn _ hd1, eat_one,
    parseNat_append mx _ hd2, eat_two, parseUntil_append '>' sep _ hsep,
    hrec]

theorem brMap_desc (recur : Str → Option (Pattern × Str)) (kp vp : Pattern)
    (mn mx : Nat) (sep kvsep rest : Str) (hsep : '>' ∉ sep) (hkv : '>' ∉ kvsep)
    (hreck : ∀ r, recur (desc kp ++ r) = some (kp, r))
    (hrecv : ∀ r, recur (desc vp ++ r) = some (vp, r)) :
    brMap recur (desc (.Map kp vp mn mx sep kvsep) ++ rest)
      = some (.Map kp vp mn mx sep kvsep, rest) := by
  have hform : desc (.Map kp vp mn mx sep kvsep) ++ rest
      = tagMap ++ (encNat mn ++ (' ' :: (encNat mx ++ (' ' :: '<' :: (sep ++ ('>' :: ' ' :: '<' :: (kvsep ++ ('>' :: ' ' :: (desc kp ++ (' ' :: (desc vp ++ (']' :: rest)))))))))))) := by
    simp [desc, List.append_assoc]
  have hd1 : headNot Char.isDigit (' ' :: (encNat mx ++ (' ' :: '<' :: (sep ++ ('>' :: ' ' :: '<' :: (kvsep ++ ('>' :: ' ' :: (desc kp ++ (' ' :: (desc vp ++ (']' :: rest))))))))))) = true := rfl
  have hd2 : headNot Char.isDigit (' ' :: '<' :: (sep ++ ('>' :: ' ' :: '<' :: (kvsep ++ ('>' :: ' ' :: (desc kp ++ (' ' :: (desc vp ++ (']' :: rest))))))))) = true := rfl
  rw [hform]
  simp only [brMap, eat_append, parseNat_append mn _ hd1, eat_one,
    parseNat_append mx _ hd2, eat_two, parseUntil_append '>' sep _ hsep,
    parseUntil_append '>' kvsep _ hkv, hreck, hrecv]

/-! ### Wrong tags make a branch fail -/

theorem brInteger_none (cs : Str) (h : eat tagInteger cs = none) :
    brInteger cs = none := by simp only [brInteger, h]

theorem brDouble_none (cs : Str) (h : eat tagDouble cs = none) :
    brDouble cs = none := by simp only [brDouble, h]

theorem brSelection_none (cs : Str) (h : eat tagSelection cs = none) :
    brSelection cs = none := by simp only [brSelection, h]

theorem brMultipleSelection_none (cs : Str) (h : eat tagMultipleSelection cs = none) :
    brMultipleSelection cs = none := by simp only [brMultipleSelection, h]

theorem brBool_none (cs : Str) (h : eat tagBool cs = none) :
    brBool cs = none := by simp [brBool, h]

theorem brAnything_none (cs : Str) (h : eat tagAnything cs = none) :
    brAnything cs = none := by simp [brAnything, h]

theorem brFileName_none (cs : Str) (h : eat tagFileName cs = none) :
    brFileName cs = none := by simp only [brFileName, h]

theorem brDirectoryName_none (cs : Str) (h : eat tagDirectoryName cs = none) :
    brDirectoryName cs = none := by simp [brDirectoryName, h]

theorem brList_none (recur : Str → Option (Pattern × Str)) (cs : Str)
    (h : eat tagList cs = none) : brList recur cs = none := by
  simp only [brList, h]

/-- The leading tag of each variant's description. -/
def tagOf : Pattern → Str
| .Integer _ _ => tagInteger
| .Double _ _ => tagDouble
| .Selection _ => tagSelection
| .MultipleSelection _ => tagMultipleSelection
| .Bool => tagBool
| .Anything => tagAnything
| .FileName _ => tagFileName
| .DirectoryName => tagDirectoryName
| .List _ _ _ _ => tagList
| .Map _ _ _ _ _ _ => tagMap

theorem desc_tag (p : Pattern) : ∃ R, desc p = tagOf p ++ R := by
  cases p with
  | Integer l u =>
    exact ⟨encInt l ++ [' '] ++ encInt u ++ [']'], by simp [desc, tagOf, List.append_assoc]⟩
  | Double l u =>
    exact ⟨encQ l ++ [' '] ++ encQ u ++ [']'], by simp [desc, tagOf, List.append_assoc]⟩
  | Selection opts =>
    exact ⟨intercalateSep ['|'] opts ++ [']'], by simp [desc, tagOf, List.append_assoc]⟩
  | MultipleSelection opts =>
    exact ⟨intercalateSep ['|'] opts ++ [']'], by simp [desc, tagOf, List.append_assoc]⟩
  | Bool => exact ⟨[], by simp [desc, tagOf]⟩
  | Anything => exact ⟨[], by simp [desc, tagOf]⟩
  | FileName ft => exact ⟨descFileType ft, by simp [desc, tagOf]⟩
  | DirectoryName => exact ⟨[], by simp [desc, tagOf]⟩
  | List base mn mx sep =>
    exact ⟨encNat mn ++ [' '] ++ encNat mx ++ [' ', '<'] ++ sep ++ ['>', ' ']
      ++ desc base ++ [']'], by simp [desc, tagOf, List.append_assoc]⟩
  | Map kp vp mn mx sep kvsep =>
    exact ⟨encNat mn ++ [' '] ++ encNat mx ++ [' ', '<'] ++ sep ++ ['>', ' ', '<']
      ++ kvsep ++ ['>', ' '] ++ desc kp ++ [' '] ++ desc vp ++ [']'],
      by simp [desc, tagOf, List.append_assoc]⟩

theorem eat_tag_desc_none (t : Str) (p : Pattern) (rest tg : Str)
    (htg : tagOf p = tg) (h : stops t tg = true) :
    eat t (desc p ++ rest) = none := by
  obtain ⟨R, hR⟩ := desc_tag p
  rw [hR, List.append_assoc, htg]
  exact eat_none_of_stops _ _ _ h

/-! ### The factory inverts descriptions -/

theorem parse_desc (p : Pattern) : ∀ (rest : Str) (fuel : Nat), wf p = true →
    depthP p < fuel → parsePattern fuel (desc p ++ rest) = some (p, rest) := by
  induction p with
  | Integer l u =>
    intro rest fuel _ hdep
    cases fuel with
    | zero => simp [depthP] at hdep
    | succ f =>
      have hs := brInteger_desc l u rest
      simp only [parsePattern]
      rw [hs]
      simp
  | Double l u =>
    intro rest fuel _ hdep
    cases fuel with
    | zero => simp [depthP] at hdep
    | succ f =>
      have hn0 : brInteger (desc (.Double l u) ++ rest) = none :=
        brInteger_none _ (eat_tag_desc_none tagInteger (.Double l u) rest tagDouble rfl (by decide))
      have hs := brDouble_desc l u rest
      simp only [parsePattern]
      rw [hn0, hs]
      simp
  | Selection opts =>
    intro rest fuel hwf hdep
    cases fuel with
    | zero => simp [depthP] at hdep
    | succ f =>
      have hn0 : brInteger (desc (.Selection opts) ++ rest) = none :=
        brInteger_none _ (eat_tag_desc_none tagInteger (.Selection opts) rest tagSelection rfl (by decide))
      have hn1 : brDouble (desc (.Selection opts) ++ rest) = none :=
        brDouble_none _ (eat_tag_desc_none tagDouble (.Selection opts) rest tagSelection rfl (by decide))
      have hs := brSelection_desc opts rest hwf
      simp only [parsePattern]
      rw [hn0, hn1, hs]
      simp
  | MultipleSelection opts =>
    intro rest fuel hwf hdep
    cases fuel with
    | zero => simp [depthP] at hdep
    | succ f =>
      have hn0 : brInteger (desc (.MultipleSelection opts) ++ rest) = none :=
        brInteger_none _ (eat_tag_desc_none tagInteger (.MultipleSelection opts) rest tagMultipleSelection rfl (by decide))
      have hn1 : brDouble (desc (.MultipleSelection opts) ++ rest) = none :=
        brDouble_none _ (eat_tag_desc_none tagDouble (.MultipleSelection opts) rest tagMultipleSelection rfl (by decide))
      have hn2 : brSelection (desc (.MultipleSelection opts) ++ rest) = none :=
        brSelection_none _ (eat_tag_desc_none tagSelection (.MultipleSelection opts) rest tagMultipleSelection rfl (by decide))
      have hs := brMultipleSelection_desc opts rest hwf
      simp only [parsePattern]
      rw [hn0, hn1, hn2, hs]
      simp
  | Bool =>
    intro rest fuel _ hdep
    cases fuel with
    | zero => simp [depthP] at hdep
    | succ f =>
      have hn0 : brInteger (desc Pattern.Bool ++ rest) = none :=
        brInteger_none _ (eat_tag_desc_none tagInteger Pattern.Bool rest tagBool rfl (by decide))
      have hn1 : brDouble (desc Pattern.Bool ++ rest) = none :=
        brDouble_none _ (eat_tag_desc_none tagDouble Pattern.Bool rest tagBool rfl (by decide))
      have hn2 : brSelection (desc Pattern.Bool ++ rest) = none :=
        brSelection_none _ (eat_tag_desc_none tagSelection Pattern.Bool rest tagBool rfl (by decide))
      have hn3 : brMultipleSelection (desc Pattern.Bool ++ rest) = none :=
        brMultipleSelection_none _ (eat_tag_desc_none tagMultipleSelection Pattern.Bool rest tagBool rfl (by decide))
      have hs := brBool_desc rest
      simp only [parsePattern]
      rw [hn0, hn1, hn2, hn3, hs]
      simp
  | Anything =>
    intro rest fuel _ hdep
    cases fuel with
    | zero => simp [depthP] at hdep
    | succ f =>
      have hn0 : brInteger (desc Pattern.Anything ++ rest) = none :=
        brInteger_none _ (eat_tag_desc_none tagInteger Pattern.Anything rest tagAnything rfl (by decide))
      have hn1 : brDouble (desc Pattern.Anything ++ rest) = none :=
        brDouble_none _ (eat_tag_desc_none tagDouble Pattern.Anything rest tagAnything rfl (by decide))
      have hn2 : brSelection (desc Pattern.Anything ++ rest) = none :=
        brSelection_none _ (eat_tag_desc_none tagSelection Pattern.Anything rest tagAnything rfl (by decide))
      have hn3 : brMultipleSelection (desc Pattern.Anything ++ rest) = none :=
        brMultipleSelection_none _ (eat_tag_desc_none tagMultipleSelection Pattern.Anything rest tagAnything rfl (by decide))
      have hn4 : brBool (desc Pattern.Anything ++ rest) = none :=
        brBool_none _ (eat_tag_desc_none tagBool Pattern.Anything rest tagAnything rfl (by decide))
      have hs := brAnything_desc rest
      simp only [parsePattern]
      rw [hn0, hn1, hn2, hn3, hn4, hs]
      simp
  | FileName ft =>
    intro rest fuel _ hdep
    cases fuel with
    | zero => simp [depthP] at hdep
    | succ f =>
      have hn0 : brInteger (desc (.FileName ft) ++ rest) = none :=
        brInteger_none _ (eat_tag_desc_none tagInteger (.FileName ft) rest tagFileName rfl (by decide))
      have hn1 : brDouble (desc (.FileName ft) ++ rest) = none :=
        brDouble_none _ (eat_tag_desc_none tagDouble (.FileName ft) rest tagFileName rfl (by decide))
      have hn2 : brSelection (desc (.FileName ft) ++ rest) = none :=
        brSelection_none _ (eat_tag_desc_none tagSelection (.FileName ft) rest tagFileName rfl (by decide))
      have hn3 : brMultipleSelection (desc (.FileName ft) ++ rest) = none :=
        brMultipleSelection_none _ (eat_tag_desc_none tagMultipleSelection (.FileName ft) rest tagFileName rfl (by decide))
      have hn4 : brBool (desc (.FileName ft) ++ rest) = none :=
        brBool_none _ (eat_tag_desc_none tagBool (.FileName ft) rest tagFileName rfl (by decide))
      have hn5 : brAnything (desc (.FileName ft) ++ rest) = none :=
        brAnything_none _ (eat_tag_desc_none tagAnything (.FileName ft) rest tagFileName rfl (by decide))
      have hs := brFileName_desc ft rest
      simp only [parsePattern]
      rw [hn0, hn1, hn2, hn3, hn4, hn5, hs]
      simp
  | DirectoryName =>
    intro rest fuel _ hdep
    cases fuel with
    | zero => simp [depthP] at hdep
    | succ f =>
      have hn0 : brInteger (desc Pattern.DirectoryName ++ rest) = none :=
        brInteger_none _ (eat_tag_desc_none tagInteger Pattern.DirectoryName rest tagDirectoryName rfl (by decide))
      have hn1 : brDouble (desc Pattern.DirectoryName ++ rest) = none :=
        brDouble_none _ (eat_tag_desc_none tagDouble Pattern.DirectoryName rest tagDirectoryName rfl (by decide))
      have hn2 : brSelection (desc Pattern.DirectoryName ++ rest) = none :=
        brSelection_none _ (eat_tag_desc_none tagSelection Pattern.DirectoryName rest tagDirectoryName rfl (by decide))
      have hn3 : brMultipleSelection (desc Pattern.DirectoryName ++ rest) = none :=
        brMultipleSelection_none _ (eat_tag_desc_none tagMultipleSelection Pattern.DirectoryName rest tagDirectoryName rfl (by decide))
      have hn4 : brBool (desc Pattern.DirectoryName ++ rest) = none :=
        brBool_none _ (eat_tag_desc_none tagBool Pattern.DirectoryName rest tagDirectoryName rfl (by decide))
      have hn5 : brAnything (desc Pattern.DirectoryName ++ rest) = none :=
        brAnything_none _ (eat_tag_desc_none tagAnything Pattern.DirectoryName rest tagDirectoryName rfl (by decide))
      have hn6 : brFileName (desc Pattern.DirectoryName ++ rest) = none :=
        brFileName_none _ (eat_tag_desc_none tagFileName Pattern.DirectoryName rest tagDirectoryName rfl (by decide))
      have hs := brDirectoryName_desc rest
      simp only [parsePattern]
      rw [hn0, hn1, hn2, hn3, hn4, hn5, hn6, hs]
      simp
  | List base mn mx sep ih =>
    intro rest fuel hwf hdep
    have hw : ('>' ∉ sep) ∧ wf base = true := by
      simp only [wf, Bool.and_eq_true, decide_eq_true_eq] at hwf
      exact hwf
    cases fuel with
    | zero => simp [depthP] at hdep
    | succ f =>
      simp only [depthP] at hdep
      have hrec : ∀ r, parsePattern f (desc base ++ r) = some (base, r) :=
        fun r => ih r f hw.2 (by omega)
      have hn0 : brInteger (desc (.List base mn mx sep) ++ rest) = none :=
        brInteger_none _ (eat_tag_desc_none tagInteger (.List base mn mx sep) rest tagList rfl (by decide))
      have hn1 : brDouble (desc (.List base mn mx sep) ++ rest) = none :=
        brDouble_none _ (eat_tag_desc_none tagDouble (.List base mn mx sep) rest tagList rfl (by decide))
      have hn2 : brSelection (desc (.List base mn mx sep) ++ rest) = none :=
        brSelection_none _ (eat_tag_desc_none tagSelection (.List base mn mx sep) rest tagList rfl (by decide))
      have hn3 : brMultipleSelection (desc (.List base mn mx sep) ++ rest) = none :=
        brMultipleSelection_none _ (eat_tag_desc_none tagMultipleSelection (.List base mn mx sep) rest tagList rfl (by decide))
      have hn4 : brBool (desc (.List base mn mx sep) ++ rest) = none :=
        brBool_none _ (eat_tag_desc_none tagBool (.List base mn mx sep) rest tagList rfl (by decide))
      have hn5 : brAnything (desc (.List base mn mx sep) ++ rest) = none :=
        brAnything_none _ (eat_tag_desc_none tagAnything (.List base mn mx sep) rest tagList rfl (by decide))
      have hn6 : brFileName (desc (.List base mn mx sep) ++ rest) = none :=
        brFileName_none _ (eat_tag_desc_none tagFileName (.List base mn mx sep) rest tagList rfl (by decide))
      have hn7 : brDirectoryName (desc (.List base mn mx sep) ++ rest) = none :=
        brDirectoryName_none _ (eat_tag_desc_none tagDirectoryName (.List base mn mx sep) rest tagList rfl (by decide))
      have hs := brList_desc (parsePattern f) base mn mx sep rest hw.1 hrec
      simp only [parsePattern]
      rw [hn0, hn1, hn2, hn3, hn4, hn5, hn6, hn7, hs]
      simp
  | Map kp vp mn mx sep kvsep ihk ihv =>
    intro rest fuel hwf hdep
    have hw : ('>' ∉ sep) ∧ ('>' ∉ kvsep) ∧ wf kp = true ∧ wf vp = true := by
      simp only [wf, Bool.and_eq_true, decide_eq_true_eq] at hwf
      tauto
    cases fuel with
    | zero => simp [depthP] at hdep
    | succ f =>
      simp only [depthP] at hdep
      have hreck : ∀ r, parsePattern f (desc kp ++ r) = some (kp, r) :=
        fun r => ihk r f hw.2.2.1 (by omega)
      have hrecv : ∀ r, parsePattern f (desc vp ++ r) = some (vp, r) :=
        fun r => ihv r f hw.2.2.2 (by omega)
      have hn0 : brInteger (desc (.Map kp vp mn mx sep kvsep) ++ rest) = none :=
        brInteger_none _ (eat_tag_desc_none tagInteger (.Map kp vp mn mx sep kvsep) rest tagMap rfl (by decide))
      have hn1 : brDouble (desc (.Map kp vp mn mx sep kvsep) ++ rest) = none :=
        brDouble_none _ (eat_tag_desc_none tagDouble (.Map kp vp mn mx sep kvsep) rest tagMap rfl (by decide))
      have hn2 : brSelection (desc (.Map kp vp mn mx sep kvsep) ++ rest) = none :=
        brSelection_none _ (eat_tag_desc_none tagSelection (.Map kp vp mn mx sep kvsep) rest tagMap rfl (by decide))
      have hn3 : brMultipleSelection (desc (.Map kp vp mn mx sep kvsep) ++ rest) = none :=
        brMultipleSelection_none _ (eat_tag_desc_none tagMultipleSelection (.Map kp vp mn mx sep kvsep) rest tagMap rfl (by decide))
      have hn4 : brBool (desc (.Map kp vp mn mx sep kvsep) ++ rest) = none :=
        brBool_none _ (eat_tag_desc_none tagBool (.Map kp vp mn mx sep kvsep) rest tagMap rfl (by decide))
      have hn5 : brAnything (desc (.Map kp vp mn mx sep kvsep) ++ rest) = none :=
        brAnything_none _ (eat_tag_desc_none tagAnything (.Map kp vp mn mx sep kvsep) rest tagMap rfl (by decide))
      have hn6 : brFileName (desc (.Map kp vp mn mx sep kvsep) ++ rest) = none :=
        brFileName_none _ (eat_tag_desc_none tagFileName (.Map kp vp mn mx sep kvsep) rest tagMap rfl (by decide))
      have hn7 : brDirectoryName (desc (.Map kp vp mn mx sep kvsep) ++ rest) = none :=
        brDirectoryName_none _ (eat_tag_desc_none tagDirectoryName (.Map kp vp mn mx sep kvsep) rest tagMap rfl (by decide))
      have hn8 : brList (parsePattern f) (desc (.Map kp vp mn mx sep kvsep) ++ rest) = none :=
        brList_none _ _ (eat_tag_desc_none tagList (.Map kp vp mn mx sep kvsep) rest tagMap rfl (by decide))
      have hs := brMap_desc (parsePattern f) kp vp mn mx sep kvsep rest hw.1 hw.2.1 hreck hrecv
      simp only [parsePattern]
      rw [hn0, hn1, hn2, hn3, hn4, hn5, hn6, hn7, hn8, hs]
      simp

theorem depthP_le_desc_length (p : Pattern) : depthP p ≤ (desc p).length := by
  induction p with
  | Integer l u => simp [depthP]
  | Double l u => simp [depthP]
  | Selection opts => simp [depthP]
  | MultipleSelection opts => simp [depthP]
  | Bool => simp [depthP]
  | Anything => simp [depthP]
  | FileName ft => simp [depthP]
  | DirectoryName => simp [depthP]
  | List base mn mx sep ih =>
    simp only [desc, depthP, List.length_append]
    simp only [List.length_cons, List.length_nil]
    omega
  | Map kp vp mn mx sep kvsep ihk ihv =>
    simp only [desc, depthP, List.length_append]
    simp only [List.length_cons, List.length_nil]
    omega

/-- With enough fuel for its own depth, the factory reconstructs any
well-formed pattern exactly from its Machine description. -/
theorem pattern_factory_desc (p : Pattern) (hwf : wf p = true) :
    pattern_factory (desc p) = some p := by
  have h := parse_desc p [] ((desc p).length + 1) hwf
    (by have := depthP_le_desc_length p; omega)
  rw [List.append_nil] at h
  rw [pattern_factory, h]

/-! ### Static shape classification (`Patterns::Tools::internal::RankInfo`,
header lines 1142-1147 and 1255-1308) -/

/-- The static shapes distinguished by the `RankInfo` specializations: an
elementary/unspecialized type (the primary template), a list-compatible
container, a map-compatible container, `std::complex`, and `std::pair`. -/
inductive CppType where
| atom
| vec (value_type : CppType)
| mapT (key_type mapped_type : CppType)
| complexT (value_type : CppType)
| pairT (key_type mapped_type : CppType)

/-- `RankInfo<T>::list_rank` exactly as in the header: the primary template
yields `0`; a list-compatible container adds one to its value type's rank;
a map-compatible container adds one to the max of key and mapped ranks;
`std::complex` adds one to its value type's rank; `std::pair` takes the
max of the two ranks. -/
def list_rank : CppType → Nat
| .atom => 0
| .vec t => list_rank t + 1
| .mapT k v => max (list_rank k) (list_rank v) + 1
| .complexT t => list_rank t + 1
| .pairT k v => max (list_rank k) (list_rank v)

/-- `RankInfo<T>::map_rank` exactly as in the header: the primary template
yields `0`; a list-compatible container keeps its value type's map rank;
a map-compatible container adds one to the max of key and mapped map
ranks; `std::complex` keeps its value type's map rank; `std::pair` adds
one to the max of the two map ranks. -/
def map_rank : CppType → Nat
| .atom => 0
| .vec t => map_rank t
| .mapT k v => max (map_rank k) (map_rank v) + 1
| .complexT t => map_rank t
| .pairT k v => max (map_rank k) (map_rank v) + 1

/-! ### Separator tables (header lines 1219-1220) -/

/-- `Patterns::Tools::internal::default_list_separator`. -/
def default_list_separator : List Str := [[','], [';'], ['|'], ['%']]

/-- `Patterns::Tools::internal::default_map_separator`. -/
def default_map_separator : List Str := [[':'], ['='], ['@'], ['#']]

/-! ### The conversion engine (`Patterns::Tools::Convert`) -/

/-- The failures the `Convert` bodies can raise: `ExcNoMatch` carries the
offending text together with the pattern's description (header lines
1098-1104); stream extraction failure carries the text (lines 1208-1211);
the `dynamic_cast` guards reject non-List/non-Map patterns; the
`AssertDimension(key_val.size(), 2)` guard rejects an entry that does not
split into exactly two parts (line 1440). -/
inductive ConvErr where
| noMatch (text : Str) (pattern_description : Str)
| streamFail (text : Str)
| needList
| needMap
| dimMismatch (entry : Str)
deriving DecidableEq

deriving instance DecidableEq for Except

/-- `Convert<int>::to_pattern()` (header lines 1155-1165):
`Integer(numeric_limits<int>::min(), numeric_limits<int>::max())`. -/
def intToPattern : Pattern := .Integer minIntValue maxIntValue

/-- `Convert<int>::to_string` (header lines 1167-1180): render with
`std::to_string`, then `AssertThrow(p->match(str), ExcNoMatch(str, *p))`. -/
def intToString (value : Int) (p : Pattern) : Except ConvErr Str :=
  let str := encInt value
  if pmatch p str then .ok str else .error (.noMatch str (desc p))

/-- `Convert<int>::to_value` (header lines 1182-1214): first
`AssertThrow(p->match(s), ExcNoMatch(s, *p))`, then extract with
`istringstream` semantics (`is >> value`), failing only when the stream
extraction itself fails. -/
def intToValue (s : Str) (p : Pattern) : Except ConvErr Int :=
  if pmatch p s then
    match readIntStream s with
    | some v => .ok v
    | none => .error (.streamFail s)
  else .error (.noMatch s (desc p))

/-- `Convert<bool>::to_pattern()` (header line 1158). -/
def boolToPattern : Pattern := .Bool

/-- `Convert<bool>::to_string` (header lines 1174-1179). -/
def boolToString (value : Bool) (p : Pattern) : Except ConvErr Str :=
  let str := if value then chars "true" else chars "false"
  if pmatch p str then .ok str else .error (.noMatch str (desc p))

/-- `Convert<bool>::to_value` (header lines 1186-1189): after the match
check the value is `(s == "true")`. -/
def boolToValue (s : Str) (p : Pattern) : Except ConvErr Bool :=
  if pmatch p s then .ok (decide (s = chars "true"))
  else .error (.noMatch s (desc p))

/-- `Convert<std::string>::to_pattern()` (header lines 1607-1610). -/
def stringToPattern : Pattern := .Anything

/-- `Convert<std::string>::to_string` (header lines 1612-1618). -/
def stringToString (t : Str) (p : Pattern) : Except ConvErr Str :=
  if pmatch p t then .ok t else .error (.noMatch t (desc p))

/-- `Convert<std::string>::to_value` (header lines 1620-1626). -/
def stringToValue (s : Str) (p : Pattern) : Except ConvErr Str :=
  if pmatch p s then .ok s else .error (.noMatch s (desc p))

/-- The element-by-element rendering loop of the container `to_string`
bodies: the first failure propagates. -/
def mapExcept (f : α → Except ConvErr β) : List α → Except ConvErr (List β)
| [] => .ok []
| a :: t =>
  match f a with
  | .error e => .error e
  | .ok b =>
    match mapExcept f t with
    | .error e => .error e
    | .ok bs => .ok (b :: bs)

/-- The list-compatible `Convert<T>::to_string` (header lines 1326-1348):
`dynamic_cast` the pattern to `List`, render each element with the base
pattern, join with `separator + " "`, then
`AssertThrow(pattern->match(s), ExcNoMatch(s, *p))`. -/
def listLikeToString (inner : α → Pattern → Except ConvErr Str)
    (t : List α) (pattern : Pattern) : Except ConvErr Str :=
  match pattern with
  | .List base mn mx sep =>
    (match mapExcept (fun x => inner x base) t with
     | .error e => .error e
     | .ok vec =>
       let s := joinCpp sep vec
       if pmatch (.List base mn mx sep) s then .ok s
       else .error (.noMatch s (desc (.List base mn mx sep))))
  | _ => .error .needList

/-- The list-compatible `Convert<T>::to_value` (header lines 1350-1370):
`AssertThrow(pattern->match(s), ExcNoMatch(s, *pattern))` first, then
`dynamic_cast` to `List`, split with `split_string_list` on the stored
separator and convert each token with the base pattern, inserting in
order. -/
def listLikeToValue (inner : Str → Pattern → Except ConvErr α)
    (s : Str) (pattern : Pattern) : Except ConvErr (List α) :=
  if pmatch pattern s then
    match pattern with
    | .List base _ _ sep =>
      mapExcept (fun tok => inner tok base) (splitStringList s sep)
    | _ => .error .needList
  else .error (.noMatch s (desc pattern))

/-- `Convert<std::vector<int>>::to_pattern()` (header lines 1315-1324):
`List(*Convert<int>::to_pattern(), 0, max_int_value,
default_list_separator[RankInfo::list_rank - 1])`. -/
def vecIntToPattern : Pattern :=
  .List intToPattern 0 listMaxIntValue
    (default_list_separator.getD (list_rank (.vec .atom) - 1) [])

def vecIntToString : List Int → Pattern → Except ConvErr Str :=
  listLikeToString intToString

def vecIntToValue : Str → Pattern → Except ConvErr (List Int) :=
  listLikeToValue intToValue

/-- `Convert<std::vector<std::vector<int>>>::to_pattern()`: the outer list
separator is selected at index `list_rank - 1 = 1`. -/
def vecVecIntToPattern : Pattern :=
  .List vecIntToPattern 0 listMaxIntValue
    (default_list_separator.getD (list_rank (.vec (.vec .atom)) - 1) [])

def vecVecIntToString : List (List Int) → Pattern → Except ConvErr Str :=
  listLikeToString vecIntToString

def vecVecIntToValue : Str → Pattern → Except ConvErr (List (List Int)) :=
  listLikeToValue vecIntToValue

/-- `std::map<int,int>::insert`: keeps keys in increasing order and does
not overwrite an existing key. -/
def insertSorted (k v : Int) : List (Int × Int) → List (Int × Int)
| [] => [(k, v)]
| (k2, v2) :: t =>
  if k < k2 then (k, v) :: (k2, v2) :: t
  else if k = k2 then (k2, v2) :: t
  else (k2, v2) :: insertSorted k v t

/-- `Convert<std::map<int,int>>::to_pattern()` (header lines 1377-1390):
`Map(*Convert<key>::to_pattern(), *Convert<mapped>::to_pattern(), 0,
max_int_value, default_list_separator[list_rank - 1],
default_map_separator[map_rank - 1])`. -/
def mapIntIntToPattern : Pattern :=
  .Map intToPattern intToPattern 0 listMaxIntValue
    (default_list_separator.getD (list_rank (.mapT .atom .atom) - 1) [])
    (default_map_separator.getD (map_rank (.mapT .atom .atom) - 1) [])

/-- The map-compatible `Convert<T>::to_string` (header lines 1392-1418):
each entry renders as `key_text ++ key_value_separator ++ value_text`, the
entries are joined with `separator + " "`, and the result is re-validated
with `AssertThrow(p->match(s), ExcNoMatch(s, *p))`. -/
def mapIntIntToString (t : List (Int × Int)) (pattern : Pattern) :
    Except ConvErr Str :=
  match pattern with
  | .Map kp vp mn mx sep kvsep =>
    (match mapExcept (fun e =>
        match intToString e.1 kp with
        | .error er => .error er
        | .ok ks =>
          match intToString e.2 vp with
          | .error er => .error er
          | .ok vs => .ok (ks ++ kvsep ++ vs)) t with
     | .error e => .error e
     | .ok vec =>
       let s := joinCpp sep vec
       if pmatch (.Map kp vp mn mx sep kvsep) s then .ok s
       else .error (.noMatch s (desc (.Map kp vp mn mx sep kvsep))))
  | _ => .error .needMap

/-- The entry loop of the map-compatible `Convert<T>::to_value` (header
lines 1435-1444): split each entry on the key/value separator, require
exactly two parts (`AssertDimension(key_val.size(), 2)`), convert the key
with the *caller's* key pattern but the value with
`Convert<mapped_type>::to_value(key_val[1])` — i.e. against the freshly
derived *default* pattern, since no pattern argument is passed at line
1443 — and insert the pair. -/
def mapEntriesToValue (kp : Pattern) (kvsep : Str) :
    List Str → List (Int × Int) → Except ConvErr (List (Int × Int))
| [], acc => .ok acc
| e :: es, acc =>
  match splitStringList e kvsep with
  | [a, b] =>
    (match intToValue a kp with
     | .error er => .error er
     | .ok k =>
       match intToValue b intToPattern with
       | .error er => .error er
       | .ok v => mapEntriesToValue kp kvsep es (insertSorted k v acc))
  | _ => .error (.dimMismatch e)

/-- The map-compatible `Convert<T>::to_value` (header lines 1420-1447):
match check first, `dynamic_cast` to `Map`, split on the separator, then
run the entry loop. -/
def mapIntIntToValue (s : Str) (pattern : Pattern) :
    Except ConvErr (List (Int × Int)) :=
  if pmatch pattern s then
    match pattern with
    | .Map kp _vp _ _ sep kvsep =>
      mapEntriesToValue kp kvsep (splitStringList s sep) []
    | _ => .error .needMap
  else .error (.noMatch s (desc pattern))

/-- Modelled from the spec: the alternative entry loop in which each value
token is converted "via the inner shape's conversion" against the
caller-supplied *value sub-pattern* of the Map pattern.  It exists only to
contrast with the source behaviour (`mapEntriesToValue`), which ignores
the value sub-pattern during reconstruction. -/
def mapEntriesToValueVP (kp vp : Pattern) (kvsep : Str) :
    List Str → List (Int × Int) → Except ConvErr (List (Int × Int))
| [], acc => .ok acc
| e :: es, acc =>
  match splitStringList e kvsep with
  | [a, b] =>
    (match intToValue a kp with
     | .error er => .error er
     | .ok k =>
       match intToValue b vp with
       | .error er => .error er
       | .ok v => mapEntriesToValueVP kp vp kvsep es (insertSorted k v acc))
  | _ => .error (.dimMismatch e)

/-- Modelled from the spec: map `to_value` that honours the caller's value
sub-pattern (contrast definition for the source's `mapIntIntToValue`). -/
def mapIntIntToValueVP (s : Str) (pattern : Pattern) :
    Except ConvErr (List (Int × Int)) :=
  if pmatch pattern s then
    match pattern with
    | .Map kp vp _ _ sep kvsep =>
      mapEntriesToValueVP kp vp kvsep (splitStringList s sep) []
    | _ => .error .needMap
  else .error (.noMatch s (desc pattern))

/-! ### Round-trip lemmas for the conversion engine -/

theorem vecIntToPattern_eq :
    vecIntToPattern = .List intToPattern 0 listMaxIntValue [','] := rfl

theorem vecVecIntToPattern_eq :
    vecVecIntToPattern = .List vecIntToPattern 0 listMaxIntValue [';'] := rfl

theorem mapIntIntToPattern_eq :
    mapIntIntToPattern = .Map intToPattern intToPattern 0 listMaxIntValue [','] [':'] := rfl

theorem intMatch_enc (n : Int) (h1 : minIntValue ≤ n) (h2 : n ≤ maxIntValue) :
    pmatch intToPattern (encInt n) = true := by
  simp only [intToPattern, pmatch, parseIntText_encInt]
  rw [if_pos (by decide : minIntValue ≤ maxIntValue)]
  simp [h1, h2]

theorem intToString_ok (n : Int) (h1 : minIntValue ≤ n) (h2 : n ≤ maxIntValue) :
    intToString n intToPattern = .ok (encInt n) := by
  simp [intToString, intMatch_enc n h1 h2]

theorem intToValue_enc (n : Int) (h1 : minIntValue ≤ n) (h2 : n ≤ maxIntValue) :
    intToValue (encInt n) intToPattern = .ok n := by
  simp [intToValue, intMatch_enc n h1 h2, readIntStream_encInt]

theorem mapExcept_ok_of (f : α → Except ConvErr β) (g : α → β) (l : List α)
    (h : ∀ x ∈ l, f x = .ok (g x)) : mapExcept f l = .ok (l.map g) := by
  induction l with
  | nil => rfl
  | cons a t ih =>
    simp only [mapExcept, h a (by simp), ih (fun x hx => h x (by simp [hx])),
      List.map_cons]

theorem mapExcept_map_ok (f : β → Except ConvErr α) (g : α → β) (l : List α)
    (h : ∀ x ∈ l, f (g x) = .ok x) : mapExcept f (l.map g) = .ok l := by
  induction l with
  | nil => rfl
  | cons a t ih =>
    simp only [List.map_cons, mapExcept, h a (by simp),
      ih (fun x hx => h x (by simp [hx]))]

theorem encInt_tok_clean (c : Char) (hc : c.isDigit = false) (hcm : c ≠ '-')
    (x : Int) : c ∉ encInt x ∧ trim (encInt x) = encInt x :=
  ⟨not_mem_encInt x c hc hcm, trim_encInt x⟩

theorem map_encInt_ne_single_nil (l : List Int) : l.map encInt ≠ [[]] := by
  intro h
  cases l with
  | nil => simp at h
  | cons a t =>
    simp only [List.map_cons] at h
    have h1 : encInt a = [] := by
      have := List.cons.injEq (encInt a) (t.map encInt) [] [] ▸ h
      rw [List.cons.injEq] at h
      exact h.1
    exact encInt_ne_nil a h1

theorem splitStringList_enc (l : List Int) :
    splitStringList (joinCpp [','] (l.map encInt)) [','] = l.map encInt := by
  apply splitStringList_joinCpp ',' (by decide)
  · intro v hv
    obtain ⟨x, _, hx⟩ := List.mem_map.mp hv
    subst hx
    exact encInt_tok_clean ',' (by decide) (by decide) x
  · exact map_encInt_ne_single_nil l

theorem vecIntMatch (l : List Int)
    (hb : ∀ x ∈ l, minIntValue ≤ x ∧ x ≤ maxIntValue)
    (hlen : l.length ≤ listMaxIntValue) :
    pmatch vecIntToPattern (joinCpp [','] (l.map encInt)) = true := by
  rw [vecIntToPattern_eq]
  simp only [pmatch, splitStringList_enc l, Bool.and_eq_true]
  refine ⟨⟨?_, ?_⟩, ?_⟩
  · simp
  · simp [hlen]
  · rw [List.all_eq_true]
    intro t ht
    obtain ⟨x, hx, hxe⟩ := List.mem_map.mp ht
    subst hxe
    exact intMatch_enc x (hb x hx).1 (hb x hx).2

theorem vecIntToString_ok (l : List Int)
    (hb : ∀ x ∈ l, minIntValue ≤ x ∧ x ≤ maxIntValue)
    (hlen : l.length ≤ listMaxIntValue) :
    vecIntToString l vecIntToPattern = .ok (joinCpp [','] (l.map encInt)) := by
  rw [vecIntToPattern_eq]
  simp only [vecIntToString, listLikeToString]
  rw [mapExcept_ok_of _ encInt l (fun x hx => intToString_ok x (hb x hx).1 (hb x hx).2)]
  have hm := vecIntMatch l hb hlen
  rw [vecIntToPattern_eq] at hm
  simp [hm]

theorem vecIntToValue_ok (l : List Int)
    (hb : ∀ x ∈ l, minIntValue ≤ x ∧ x ≤ maxIntValue)
    (hlen : l.length ≤ listMaxIntValue) :
    vecIntToValue (joinCpp [','] (l.map encInt)) vecIntToPattern = .ok l := by
  have hm := vecIntMatch l hb hlen
  rw [vecIntToPattern_eq] at hm ⊢
  simp only [vecIntToValue, listLikeToValue, hm, if_true, splitStringList_enc l]
  exact mapExcept_map_ok _ encInt l (fun x hx => intToValue_enc x (hb x hx).1 (hb x hx).2)

theorem mem_intercalate (c : Char) (d : Str) (toks : List Str)
    (h : c ∈ intercalateSep d toks) : c ∈ d ∨ ∃ t ∈ toks, c ∈ t := by
  induction toks with
  | nil => simp [intercalateSep] at h
  | cons t ts ih =>
    cases ts with
    | nil => exact Or.inr ⟨t, by simp, h⟩
    | cons t2 ts2 =>
      rw [intercalate_cons₂] at h
      rcases List.mem_append.mp h with h1 | h1
      · rcases List.mem_append.mp h1 with h2 | h2
        · exact Or.inr ⟨t, by simp, h2⟩
        · exact Or.inl h2
      · rcases ih h1 with h2 | ⟨u, hu, hcu⟩
        · exact Or.inl h2
        · exact Or.inr ⟨u, List.mem_cons_of_mem _ hu, hcu⟩

theorem mem_joinCpp (c : Char) (sep : Str) (vec : List Str)
    (h : c ∈ joinCpp sep vec) : c ∈ sep ∨ c = ' ' ∨ ∃ v ∈ vec, c ∈ v := by
  rw [joinCpp_eq] at h
  rcases mem_intercalate c _ vec h with h1 | h1
  · rcases List.mem_append.mp h1 with h2 | h2
    · exact Or.inl h2
    · exact Or.inr (Or.inl (by simpa using h2))
  · exact Or.inr (Or.inr h1)

theorem joinCpp_ne_nil (sep : Str) (v : Str) (vs : List Str)
    (h : v ≠ [] ∨ vs ≠ []) : joinCpp sep (v :: vs) ≠ [] := by
  rw [joinCpp_eq]
  exact intercalate_ne_nil _ (by simp) v vs h

theorem inner_no_semi (li : List Int) : ';' ∉ joinCpp [','] (li.map encInt) := by
  intro h
  rcases mem_joinCpp ';' _ _ h with h1 | h1 | ⟨v, hv, hcv⟩
  · simp at h1
  · exact absurd h1 (by decide)
  · obtain ⟨x, _, hx⟩ := List.mem_map.mp hv
    subst hx
    exact not_mem_encInt x ';' (by decide) (by decide) hcv

theorem inner_trim (li : List Int) :
    trim (joinCpp [','] (li.map encInt)) = joinCpp [','] (li.map encInt) := by
  cases li with
  | nil => rfl
  | cons a t =>
    rw [joinCpp_eq]
    simp only [List.map_cons]
    apply trim_intercalate
    intro u hu
    simp only [List.mem_cons] at hu
    rcases hu with hu | hu
    · subst hu; exact ⟨trim_encInt a, encInt_ne_nil a⟩
    · obtain ⟨x, _, hx⟩ := List.mem_map.mp hu
      subst hx
      exact ⟨trim_encInt x, encInt_ne_nil x⟩

theorem map_inner_ne_single_nil (ll : List (List Int)) (h : ll ≠ [[]]) :
    ll.map (fun li => joinCpp [','] (li.map encInt)) ≠ [[]] := by
  intro hc
  cases ll with
  | nil => simp at hc
  | cons a t =>
    simp only [List.map_cons, List.cons.injEq, List.map_eq_nil_iff] at hc
    cases a with
    | nil =>
      rw [hc.2] at h
      exact h rfl
    | cons x xs =>
      have := joinCpp_ne_nil [','] (encInt x) (xs.map encInt)
        (Or.inl (encInt_ne_nil x))
      rw [← List.map_cons] at this
      exact this hc.1

theorem splitStringList_inner (ll : List (List Int)) (hone : ll ≠ [[]]) :
    splitStringList
        (joinCpp [';'] (ll.map (fun li => joinCpp [','] (li.map encInt)))) [';']
      = ll.map (fun li => joinCpp [','] (li.map encInt)) := by
  apply splitStringList_joinCpp ';' (by decide)
  · intro v hv
    obtain ⟨li, _, hli⟩ := List.mem_map.mp hv
    subst hli
    exact ⟨inner_no_semi li, inner_trim li⟩
  · exact map_inner_ne_single_nil ll hone

theorem vecVecMatch (ll : List (List Int))
    (hb : ∀ li ∈ ll, (∀ x ∈ li, minIntValue ≤ x ∧ x ≤ maxIntValue)
          ∧ li.length ≤ listMaxIntValue)
    (hlen : ll.length ≤ listMaxIntValue) (hone : ll ≠ [[]]) :
    pmatch vecVecIntToPattern
      (joinCpp [';'] (ll.map (fun li => joinCpp [','] (li.map encInt)))) = true := by
  rw [vecVecIntToPattern_eq]
  have hs := splitStringList_inner ll hone
  simp only [pmatch, hs, Bool.and_eq_true]
  refine ⟨⟨by simp, by simp [hlen]⟩, ?_⟩
  rw [List.all_eq_true]
  intro t ht
  obtain ⟨li, hli, hlie⟩ := List.mem_map.mp ht
  subst hlie
  exact vecIntMatch li (hb li hli).1 (hb li hli).2

theorem vecVecIntToString_ok (ll : List (List Int))
    (hb : ∀ li ∈ ll, (∀ x ∈ li, minIntValue ≤ x ∧ x ≤ maxIntValue)
          ∧ li.length ≤ listMaxIntValue)
    (hlen : ll.length ≤ listMaxIntValue) (hone : ll ≠ [[]]) :
    vecVecIntToString ll vecVecIntToPattern
      = .ok (joinCpp [';'] (ll.map (fun li => joinCpp [','] (li.map encInt)))) := by
  rw [vecVecIntToPattern_eq]
  simp only [vecVecIntToString, listLikeToString]
  rw [mapExcept_ok_of _ (fun li => joinCpp [','] (li.map encInt)) ll
    (fun li hli => by
      have := vecIntToString_ok li (hb li hli).1 (hb li hli).2
      rw [vecIntToPattern_eq] at this
      exact this)]
  have hm := vecVecMatch ll hb hlen hone
  rw [vecVecIntToPattern_eq] at hm
  simp [hm]

theorem vecVecIntToValue_ok (ll : List (List Int))
    (hb : ∀ li ∈ ll, (∀ x ∈ li, minIntValue ≤ x ∧ x ≤ maxIntValue)
          ∧ li.length ≤ listMaxIntValue)
    (hlen : ll.length ≤ listMaxIntValue) (hone : ll ≠ [[]]) :
    vecVecIntToValue
        (joinCpp [';'] (ll.map (fun li => joinCpp [','] (li.map encInt))))
        vecVecIntToPattern = .ok ll := by
  have hm := vecVecMatch ll hb hlen hone
  rw [vecVecIntToPattern_eq] at hm ⊢
  simp only [vecVecIntToValue, listLikeToValue, hm, if_true, splitStringList_inner ll hone]
  apply mapExcept_map_ok
  intro li hli
  have := vecIntToValue_ok li (hb li hli).1 (hb li hli).2
  rw [vecIntToPattern_eq] at this
  exact this

/-- Strictly increasing keys: the invariant of a `std::map` iteration
sequence. -/
def chainLt : List (Int × Int) → Bool
| [] => true
| [_] => true
| (k1, _) :: (k2, v2) :: t => decide (k1 < k2) && chainLt ((k2, v2) :: t)

theorem chainLt_head_lt (k v : Int) (t : List (Int × Int))
    (h : chainLt ((k, v) :: t) = true) :
    (∀ e ∈ t, k < e.1) ∧ chainLt t = true := by
  induction t generalizing k v with
  | nil => exact ⟨by simp, rfl⟩
  | cons e2 t2 ih =>
    obtain ⟨k2, v2⟩ := e2
    simp only [chainLt, Bool.and_eq_true, decide_eq_true_eq] at h
    obtain ⟨hk, hrest⟩ := h
    obtain ⟨ha, _⟩ := ih k2 v2 hrest
    refine ⟨?_, hrest⟩
    intro e he
    rcases List.mem_cons.mp he with he | he
    · rw [he]; exact hk
    · exact lt_trans hk (ha e he)

theorem insertSorted_append (k v : Int) (acc : List (Int × Int))
    (hacc : ∀ e ∈ acc, e.1 < k) : insertSorted k v acc = acc ++ [(k, v)] := by
  induction acc with
  | nil => rfl
  | cons e2 t ih =>
    obtain ⟨k2, v2⟩ := e2
    have hk2 : k2 < k := hacc (k2, v2) (by simp)
    have h1 : ¬ k < k2 := by omega
    have h2 : ¬ k = k2 := by omega
    simp [insertSorted, h1, h2, ih (fun e he => hacc e (by simp [he]))]

theorem entry_no_comma (e : Int × Int) :
    ',' ∉ encInt e.1 ++ [':'] ++ encInt e.2 := by
  intro h
  rcases List.mem_append.mp h with h1 | h1
  · rcases List.mem_append.mp h1 with h2 | h2
    · exact not_mem_encInt e.1 ',' (by decide) (by decide) h2
    · simp at h2
  · exact not_mem_encInt e.2 ',' (by decide) (by decide) h1

theorem entry_trim (e : Int × Int) :
    trim (encInt e.1 ++ [':'] ++ encInt e.2) = encInt e.1 ++ [':'] ++ encInt e.2 := by
  apply trim_eq_of_no_ws
  intro x hx
  rcases List.mem_append.mp hx with h1 | h1
  · rcases List.mem_append.mp h1 with h2 | h2
    · exact encInt_no_ws e.1 x h2
    · simp at h2; rw [h2]; rfl
  · exact encInt_no_ws e.2 x h1

theorem entry_ne_nil (e : Int × Int) :
    encInt e.1 ++ [':'] ++ encInt e.2 ≠ [] := by
  simp [encInt_ne_nil]

theorem map_entry_ne_single_nil (m : List (Int × Int)) :
    m.map (fun e => encInt e.1 ++ [':'] ++ encInt e.2) ≠ [[]] := by
  intro hc
  cases m with
  | nil => simp at hc
  | cons e t =>
    simp only [List.map_cons, List.cons.injEq] at hc
    exact entry_ne_nil e hc.1

theorem splitStringList_entries (m : List (Int × Int)) :
    splitStringList
        (joinCpp [','] (m.map (fun e => encInt e.1 ++ [':'] ++ encInt e.2))) [',']
      = m.map (fun e => encInt e.1 ++ [':'] ++ encInt e.2) := by
  apply splitStringList_joinCpp ',' (by decide)
  · intro v hv
    obtain ⟨e, _, he⟩ := List.mem_map.mp hv
    subst he
    exact ⟨entry_no_comma e, entry_trim e⟩
  · exact map_entry_ne_single_nil m

theorem entry_pair_split (e : Int × Int) :
    splitStringList (encInt e.1 ++ [':'] ++ encInt e.2) [':']
      = [encInt e.1, encInt e.2] := by
  have h : encInt e.1 ++ [':'] ++ encInt e.2 = encInt e.1 ++ ':' :: encInt e.2 := by
    simp [List.append_assoc]
  rw [h]
  exact splitStringList_pair ':' _ _
    (not_mem_encInt e.1 ':' (by decide) (by decide))
    (not_mem_encInt e.2 ':' (by decide) (by decide))
    (trim_encInt e.1) (trim_encInt e.2)

theorem mapIntMatch (m : List (Int × Int))
    (hb : ∀ e ∈ m, (minIntValue ≤ e.1 ∧ e.1 ≤ maxIntValue)
          ∧ (minIntValue ≤ e.2 ∧ e.2 ≤ maxIntValue))
    (hlen : m.length ≤ listMaxIntValue) :
    pmatch mapIntIntToPattern
      (joinCpp [','] (m.map (fun e => encInt e.1 ++ [':'] ++ encInt e.2))) = true := by
  rw [mapIntIntToPattern_eq]
  simp only [pmatch, splitStringList_entries m, Bool.and_eq_true]
  refine ⟨⟨by simp, by simp [hlen]⟩, ?_⟩
  rw [List.all_eq_true]
  intro t ht
  obtain ⟨e, he, hee⟩ := List.mem_map.mp ht
  subst hee
  rw [entry_pair_split e]
  simp only [Bool.and_eq_true]
  exact ⟨intMatch_enc e.1 (hb e he).1.1 (hb e he).1.2,
    intMatch_enc e.2 (hb e he).2.1 (hb e he).2.2⟩

theorem mapEntries_fold (m : List (Int × Int)) : ∀ acc : List (Int × Int),
    (∀ e ∈ m, (minIntValue ≤ e.1 ∧ e.1 ≤ maxIntValue)
      ∧ (minIntValue ≤ e.2 ∧ e.2 ≤ maxIntValue)) →
    chainLt m = true →
    (∀ a ∈ acc, ∀ e ∈ m, a.1 < e.1) →
    mapEntriesToValue intToPattern [':']
        (m.map (fun e => encInt e.1 ++ [':'] ++ encInt e.2)) acc
      = .ok (acc ++ m) := by
  induction m with
  | nil => intro acc _ _ _; simp [mapEntriesToValue]
  | cons e es ih =>
    intro acc hb hc hacc
    obtain ⟨k, v⟩ := e
    simp only [List.map_cons, mapEntriesToValue]
    rw [entry_pair_split (k, v)]
    simp only [intToValue_enc k (hb (k, v) (by simp)).1.1 (hb (k, v) (by simp)).1.2,
      intToValue_enc v (hb (k, v) (by simp)).2.1 (hb (k, v) (by simp)).2.2]
    rw [insertSorted_append k v acc (fun a ha => hacc a ha (k, v) (by simp))]
    obtain ⟨hlt, hces⟩ := chainLt_head_lt k v es hc
    rw [ih (acc ++ [(k, v)]) (fun x hx => hb x (by simp [hx])) hces ?_]
    · simp
    · intro a ha e2 he2
      rcases List.mem_append.mp ha with ha | ha
      · exact hacc a ha e2 (by simp [he2])
      · simp only [List.mem_singleton] at ha
        rw [ha]
        exact hlt e2 he2

theorem mapIntIntToString_ok (m : List (Int × Int))
    (hb : ∀ e ∈ m, (minIntValue ≤ e.1 ∧ e.1 ≤ maxIntValue)
          ∧ (minIntValue ≤ e.2 ∧ e.2 ≤ maxIntValue))
    (hlen : m.length ≤ listMaxIntValue) :
    mapIntIntToString m mapIntIntToPattern
      = .ok (joinCpp [','] (m.map (fun e => encInt e.1 ++ [':'] ++ encInt e.2))) := by
  rw [mapIntIntToPattern_eq]
  simp only [mapIntIntToString]
  rw [mapExcept_ok_of _ (fun e => encInt e.1 ++ [':'] ++ encInt e.2) m
    (fun e he => by
      rw [intToString_ok e.1 (hb e he).1.1 (hb e he).1.2,
        intToString_ok e.2 (hb e he).2.1 (hb e he).2.2])]
  have hm := mapIntMatch m hb hlen
  rw [mapIntIntToPattern_eq] at hm
  simp only [List.append_assoc, List.singleton_append] at hm
  simp [hm]

theorem mapIntIntToValue_ok (m : List (Int × Int))
    (hb : ∀ e ∈ m, (minIntValue ≤ e.1 ∧ e.1 ≤ maxIntValue)
          ∧ (minIntValue ≤ e.2 ∧ e.2 ≤ maxIntValue))
    (hlen : m.length ≤ listMaxIntValue) (hsort : chainLt m = true) :
    mapIntIntToValue
        (joinCpp [','] (m.map (fun e => encInt e.1 ++ [':'] ++ encInt e.2)))
        mapIntIntToPattern = .ok m := by
  have hm := mapIntMatch m hb hlen
  rw [mapIntIntToPattern_eq] at hm ⊢
  simp only [mapIntIntToValue, hm, if_true, splitStringList_entries m]
  have := mapEntries_fold m [] hb hsort (by simp)
  simpa using this

/-! ### Claim theorems -/

/-- C8: the static rank classification: elementary scalars have rank
(0,0); a list-like container of an inner type has rank
(inner.list_rank+1, inner.map_rank); a map-like container has rank
(max(key.list_rank, value.list_rank)+1, max(key.map_rank, value.map_rank)+1);
`std::complex` has list_rank = inner.list_rank+1 and map_rank =
inner.map_rank; `std::pair` has list_rank = max(key.list_rank,
value.list_rank) and map_rank = max(key.map_rank, value.map_rank)+1. -/
theorem c8_rank_classification :
    (list_rank .atom = 0 ∧ map_rank .atom = 0)
  ∧ (∀ t : CppType, list_rank (.vec t) = list_rank t + 1
      ∧ map_rank (.vec t) = map_rank t)
  ∧ (∀ k v : CppType, list_rank (.mapT k v) = max (list_rank k) (list_rank v) + 1
      ∧ map_rank (.mapT k v) = max (map_rank k) (map_rank v) + 1)
  ∧ (∀ t : CppType, list_rank (.complexT t) = list_rank t + 1
      ∧ map_rank (.complexT t) = map_rank t)
  ∧ (∀ k v : CppType, list_rank (.pairT k v) = max (list_rank k) (list_rank v)
      ∧ map_rank (.pairT k v) = max (map_rank k) (map_rank v) + 1) :=
  ⟨⟨rfl, rfl⟩, fun _ => ⟨rfl, rfl⟩, fun _ _ => ⟨rfl, rfl⟩, fun _ => ⟨rfl, rfl⟩,
    fun _ _ => ⟨rfl, rfl⟩⟩

/-- C2: for every well-formed pattern, the factory applied to the Machine
description reconstructs a pattern p2 that matches exactly the same
strings and has the identical Machine description. -/
theorem c2_pattern_description_roundtrip (p : Pattern) (hwf : wf p = true) :
    ∃ p2, pattern_factory (desc p) = some p2
      ∧ (∀ s : Str, pmatch p s = pmatch p2 s)
      ∧ desc p2 = desc p :=
  ⟨p, pattern_factory_desc p hwf, fun _ => rfl, rfl⟩

/-- A sample pattern exercising nesting for the C2 witness. -/
def c2SamplePattern : Pattern :=
  .Map (.List (.Integer (-3) 7) 1 4 [';'])
    (.Selection [chars "red", chars "blue"]) 0 9 [','] [':']

theorem c2_pattern_description_roundtrip_witness :
    wf c2SamplePattern = true
  ∧ (∃ p2, pattern_factory (desc c2SamplePattern) = some p2
      ∧ (∀ s : Str, pmatch c2SamplePattern s = pmatch p2 s)
      ∧ desc p2 = desc c2SamplePattern) :=
  ⟨by decide, c2_pattern_description_roundtrip c2SamplePattern (by decide)⟩

/-- C3: `Integer(lower, upper).match` with inverted bounds accepts every
integer text (unrestricted, not an error), while with ordered bounds it
accepts exactly the integer texts whose value lies in the inclusive
interval; in particular `Integer(2,5)` accepts "3" and rejects "6". -/
theorem c3_integer_bound_convention :
    (∀ (l u : Int) (x : Str), u < l → (parseIntText x).isSome = true →
      pmatch (.Integer l u) x = true)
  ∧ (∀ (l u : Int) (x : Str), l ≤ u →
      (pmatch (.Integer l u) x = true ↔
        ∃ v, parseIntText x = some v ∧ l ≤ v ∧ v ≤ u))
  ∧ pmatch (.Integer 2 5) (chars "3") = true
  ∧ pmatch (.Integer 2 5) (chars "6") = false := by
  refine ⟨?_, ?_, by decide, by decide⟩
  · intro l u x h hsome
    cases hp : parseIntText x with
    | none => rw [hp] at hsome; simp at hsome
    | some v =>
      simp only [pmatch, hp]
      rw [if_neg (by omega)]
  · intro l u x h
    cases hp : parseIntText x with
    | none => simp [pmatch, hp]
    | some v =>
      simp only [pmatch, hp, if_pos h, Bool.and_eq_true, decide_eq_true_eq,
        Option.some.injEq]
      constructor
      · rintro ⟨h1, h2⟩; exact ⟨v, rfl, h1, h2⟩
      · rintro ⟨v2, hv2, h1, h2⟩; rw [hv2]; exact ⟨h1, h2⟩

theorem c3_integer_bound_convention_witness :
    pmatch (.Integer 5 2) (chars "100") = true
  ∧ pmatch (.Integer 2 5) (chars "3") = true :=
  ⟨c3_integer_bound_convention.1 5 2 (chars "100") (by decide) (by decide),
   (c3_integer_bound_convention.2.1 2 5 (chars "3") (by decide)).mpr
     ⟨3, by decide, by decide, by decide⟩⟩

theorem entry_match_iff (kp vp : Pattern) (kvsep e : Str) :
    ((match splitStringList e kvsep with
      | [a, b] => pmatch kp a && pmatch vp b
      | _ => false) = true)
      ↔ ∃ a b, splitStringList e kvsep = [a, b]
          ∧ pmatch kp a = true ∧ pmatch vp b = true := by
  cases h : splitStringList e kvsep with
  | nil => simp
  | cons a t =>
    cases t with
    | nil => simp
    | cons b t2 =>
      cases t2 with
      | nil =>
        simp only [Bool.and_eq_true, List.cons.injEq, and_true]
        constructor
        · rintro ⟨h1, h2⟩; exact ⟨a, b, ⟨rfl, rfl⟩, h1, h2⟩
        · rintro ⟨a2, b2, ⟨ha, hb⟩, h1, h2⟩
          rw [ha, hb]; exact ⟨h1, h2⟩
      | cons c t3 => simp

/-- C4: `Map.match` accepts exactly the texts whose split on the map
separator has an entry count in [min, max] and whose every entry splits on
the key/value separator into exactly two parts matching the key and value
patterns; an entry with a different number of parts fails the match, so
`Map(Integer(), Integer()).match("1:2,3") == false`, and `to_value` on
that text raises a conversion failure rather than silently ignoring the
entry. -/
theorem c4_map_structural_rejection :
    (∀ (kp vp : Pattern) (mn mx : Nat) (sep kvsep s : Str),
      pmatch (.Map kp vp mn mx sep kvsep) s = true ↔
        (mn ≤ (splitStringList s sep).length
         ∧ (splitStringList s sep).length ≤ mx
         ∧ ∀ e ∈ splitStringList s sep, ∃ a b,
             splitStringList e kvsep = [a, b]
             ∧ pmatch kp a = true ∧ pmatch vp b = true))
  ∧ pmatch mapIntIntToPattern (chars "1:2,3") = false
  ∧ mapIntIntToValue (chars "1:2,3") mapIntIntToPattern
      = .error (.noMatch (chars "1:2,3") (desc mapIntIntToPattern)) := by
  refine ⟨?_, by decide, by decide⟩
  intro kp vp mn mx sep kvsep s
  simp only [pmatch, Bool.and_eq_true, decide_eq_true_eq, List.all_eq_true,
    entry_match_iff]
  tauto

theorem c4_map_structural_rejection_witness :
    pmatch mapIntIntToPattern (chars "1:2, 3:4") = true :=
  (c4_map_structural_rejection.1 intToPattern intToPattern 0 listMaxIntValue
    [','] [':'] (chars "1:2, 3:4")).mpr
    (by
      refine ⟨by decide, by decide, ?_⟩
      intro e he
      have : e = chars "1:2" ∨ e = chars "3:4" := by
        have hs : splitStringList (chars "1:2, 3:4") [','] = [chars "1:2", chars "3:4"] := by decide
        rw [hs] at he
        simpa using he
      rcases this with h | h <;> subst h
      · exact ⟨chars "1", chars "2", by decide, by decide, by decide⟩
      · exact ⟨chars "3", chars "4", by decide, by decide, by decide⟩)

/-- C5: the derived pattern for a list-of-list-of-integers selects the
rank-2 list separator ";" for the outer level and the rank-1 separator ","
for the inner level (the separator tables are indexed at `list_rank - 1`),
and the value [[1,2],[3]] serializes to "1, 2; 3", which parses back to
[[1,2],[3]] exactly as the spec's spacing variant "1, 2 ; 3" does. -/
theorem c5_rank_driven_separators :
    vecVecIntToPattern = .List vecIntToPattern 0 listMaxIntValue [';']
  ∧ vecIntToPattern = .List intToPattern 0 listMaxIntValue [',']
  ∧ default_list_separator.getD (list_rank (.vec (.vec .atom)) - 1) [] = [';']
  ∧ default_list_separator.getD (list_rank (.vec .atom) - 1) [] = [',']
  ∧ vecVecIntToString [[1, 2], [3]] vecVecIntToPattern = .ok (chars "1, 2; 3")
  ∧ vecVecIntToValue (chars "1, 2 ; 3") vecVecIntToPattern = .ok [[1, 2], [3]]
  ∧ vecVecIntToValue (chars "1, 2; 3") vecVecIntToPattern = .ok [[1, 2], [3]] := by
  refine ⟨rfl, rfl, rfl, rfl, ?_, ?_, ?_⟩ <;> decide

/-- C6: every `to_value` validates the text against the pattern before any
structural decomposition: on mismatch it fails immediately with the error
carrying both the offending text and the pattern's description, and no
value is returned. -/
theorem c6_to_value_validates_first (s : Str) (p : Pattern)
    (h : pmatch p s = false) :
    intToValue s p = .error (.noMatch s (desc p))
  ∧ boolToValue s p = .error (.noMatch s (desc p))
  ∧ stringToValue s p = .error (.noMatch s (desc p))
  ∧ vecIntToValue s p = .error (.noMatch s (desc p))
  ∧ vecVecIntToValue s p = .error (.noMatch s (desc p))
  ∧ mapIntIntToValue s p = .error (.noMatch s (desc p)) := by
  refine ⟨?_, ?_, ?_, ?_, ?_, ?_⟩ <;>
    simp [intToValue, boolToValue, stringToValue, vecIntToValue,
      vecVecIntToValue, mapIntIntToValue, listLikeToValue, h]

theorem c6_to_value_validates_first_witness :
    pmatch intToPattern (chars "abc") = false
  ∧ intToValue (chars "abc") intToPattern
      = .error (.noMatch (chars "abc") (desc intToPattern)) :=
  ⟨by decide,
    (c6_to_value_validates_first (chars "abc") intToPattern (by decide)).1⟩

/-- C7: `to_string` joins the rendered list elements with the pattern's
separator followed by a single space, renders each map entry as the key
text, then the key_value_separator, then the value text, joins entries the
same way, and re-validates the assembled string against the pattern before
returning, failing loudly when the assembled string does not match its own
pattern. -/
theorem c7_to_string_join_and_revalidate :
    (∀ (base : Pattern) (mn mx : Nat) (sep : Str) (t : List Int) (vec : List Str),
      mapExcept (fun x => intToString x base) t = .ok vec →
      vecIntToString t (.List base mn mx sep)
        = (if pmatch (.List base mn mx sep) (intercalateSep (sep ++ [' ']) vec)
           then .ok (intercalateSep (sep ++ [' ']) vec)
           else .error (.noMatch (intercalateSep (sep ++ [' ']) vec)
                          (desc (.List base mn mx sep)))))
  ∧ (∀ (kp vp : Pattern) (mn mx : Nat) (sep kvsep : Str) (k v : Int) (ks vs : Str),
      intToString k kp = .ok ks → intToString v vp = .ok vs →
      mapIntIntToString [(k, v)] (.Map kp vp mn mx sep kvsep)
        = (if pmatch (.Map kp vp mn mx sep kvsep) (ks ++ kvsep ++ vs)
           then .ok (ks ++ kvsep ++ vs)
           else .error (.noMatch (ks ++ kvsep ++ vs)
                          (desc (.Map kp vp mn mx sep kvsep)))))
  ∧ (∀ (t : List Int) (p : Pattern) (s : Str),
      vecIntToString t p = .ok s → pmatch p s = true)
  ∧ (∀ (t : List (Int × Int)) (p : Pattern) (s : Str),
      mapIntIntToString t p = .ok s → pmatch p s = true) := by
  refine ⟨?_, ?_, ?_, ?_⟩
  · intro base mn mx sep t vec h
    simp only [vecIntToString, listLikeToString, h, joinCpp_eq]
  · intro kp vp mn mx sep kvsep k v ks vs hk hv
    simp only [mapIntIntToString, mapExcept, hk, hv, joinCpp_eq, intercalateSep]
  · intro t p s h
    cases p with
    | List base mn mx sep =>
      simp only [vecIntToString, listLikeToString] at h
      cases hm : mapExcept (fun x => intToString x base) t with
      | error e => rw [hm] at h; cases h
      | ok vec =>
        rw [hm] at h
        by_cases hmt : pmatch (.List base mn mx sep) (joinCpp sep vec) = true
        · simp only [hmt, if_true] at h
          cases h
          exact hmt
        · simp only [hmt, if_false, Bool.false_eq_true] at h
          cases h
    | Integer l u => cases h
    | Double l u => cases h
    | Selection o => cases h
    | MultipleSelection o => cases h
    | Bool => cases h
    | Anything => cases h
    | FileName ft => cases h
    | DirectoryName => cases h
    | Map kp vp mn mx sep kvsep => cases h
  · intro t p s h
    cases p with
    | Map kp vp mn mx sep kvsep =>
      simp only [mapIntIntToString] at h
      cases hm : mapExcept (fun e =>
          match intToString e.1 kp with
          | .error er => .error er
          | .ok ks =>
            match intToString e.2 vp with
            | .error er => .error er
            | .ok vs => .ok (ks ++ kvsep ++ vs)) t with
      | error e => rw [hm] at h; cases h
      | ok vec =>
        rw [hm] at h
        by_cases hmt : pmatch (.Map kp vp mn mx sep kvsep) (joinCpp sep vec) = true
        · simp only [hmt, if_true] at h
          cases h
          exact hmt
        · simp only [hmt, if_false, Bool.false_eq_true] at h
          cases h
    | Integer l u => cases h
    | Double l u => cases h
    | Selection o => cases h
    | MultipleSelection o => cases h
    | Bool => cases h
    | Anything => cases h
    | FileName ft => cases h
    | DirectoryName => cases h
    | List base mn mx sep => cases h

theorem c7_to_string_join_and_revalidate_witness :
    vecIntToString [1, 2] (.List intToPattern 0 listMaxIntValue [','])
      = (if pmatch (.List intToPattern 0 listMaxIntValue [','])
            (intercalateSep ([','] ++ [' ']) [chars "1", chars "2"])
         then .ok (intercalateSep ([','] ++ [' ']) [chars "1", chars "2"])
         else .error (.noMatch (intercalateSep ([','] ++ [' ']) [chars "1", chars "2"])
                        (desc (.List intToPattern 0 listMaxIntValue [','])))) :=
  c7_to_string_join_and_revalidate.1 intToPattern 0 listMaxIntValue [',']
    [1, 2] [chars "1", chars "2"] (by decide)

/-- C9: during map `to_value` each entry's key token is parsed against the
caller-supplied Map pattern's key sub-pattern, but each value token is
parsed against a freshly derived default pattern for the mapped type
rather than the pattern's value sub-pattern: the result does not depend on
the value sub-pattern (beyond the initial match), a value token accepted
by a custom `Anything` value sub-pattern still fails against the default
`Integer` pattern, while the alternative conversion honouring the value
sub-pattern succeeds, and a custom key sub-pattern is honoured. -/
theorem c9_map_to_value_ignores_value_subpattern :
    (∀ (kp vp1 vp2 : Pattern) (mn mx : Nat) (sep kvsep s : Str),
      pmatch (.Map kp vp1 mn mx sep kvsep) s = true →
      pmatch (.Map kp vp2 mn mx sep kvsep) s = true →
      mapIntIntToValue s (.Map kp vp1 mn mx sep kvsep)
        = mapIntIntToValue s (.Map kp vp2 mn mx sep kvsep))
  ∧ pmatch (.Map intToPattern .Anything 0 listMaxIntValue [','] [':'])
      (chars "1:2 3") = true
  ∧ mapIntIntToValue (chars "1:2 3")
      (.Map intToPattern .Anything 0 listMaxIntValue [','] [':'])
      = .error (.noMatch (chars "2 3") (desc intToPattern))
  ∧ mapIntIntToValueVP (chars "1:2 3")
      (.Map intToPattern .Anything 0 listMaxIntValue [','] [':'])
      = .ok [(1, 2)]
  ∧ mapIntIntToValue (chars "2 3:4")
      (.Map .Anything intToPattern 0 listMaxIntValue [','] [':'])
      = .ok [(2, 4)] := by
  refine ⟨?_, by decide, by decide, by decide, by decide⟩
  intro kp vp1 vp2 mn mx sep kvsep s h1 h2
  simp only [mapIntIntToValue, h1, h2, if_true]

theorem c9_map_to_value_ignores_value_subpattern_witness :
    mapIntIntToValue (chars "1:2")
        (.Map intToPattern .Anything 0 listMaxIntValue [','] [':'])
      = mapIntIntToValue (chars "1:2")
        (.Map intToPattern intToPattern 0 listMaxIntValue [','] [':']) :=
  c9_map_to_value_ignores_value_subpattern.1 intToPattern .Anything intToPattern
    0 listMaxIntValue [','] [':'] (chars "1:2") (by decide) (by decide)

/-- C10: for the list-compatible shapes with their default derived
patterns, `to_string` of the empty container returns the empty string and
`to_value` of the empty string returns the empty container; the empty text
is accepted because the default List pattern has `min_elements == 0`. -/
theorem c10_empty_container_roundtrip :
    vecIntToPattern = .List intToPattern 0 listMaxIntValue [',']
  ∧ vecVecIntToPattern = .List vecIntToPattern 0 listMaxIntValue [';']
  ∧ vecIntToString [] vecIntToPattern = .ok []
  ∧ vecIntToValue [] vecIntToPattern = .ok []
  ∧ vecVecIntToString [] vecVecIntToPattern = .ok []
  ∧ vecVecIntToValue [] vecVecIntToPattern = .ok []
  ∧ pmatch vecIntToPattern [] = true
  ∧ pmatch vecVecIntToPattern [] = true := by
  refine ⟨rfl, rfl, ?_, ?_, ?_, ?_, ?_, ?_⟩ <;> decide

/-- C1 (amended): the value round-trip `to_value(to_string(v, p), p) == v`
with `p = to_pattern()` holds for representative supported shapes — `int`
values within the type's numeric limits, `bool`, `std::string`,
`vector<int>`, `vector<vector<int>>` and `map<int,int>` states
(key-sorted, within `max_elements`) — except values that serialize to the
empty string while being a non-empty container, such as `[[]]`. -/
theorem c1_value_roundtrip (n : Int) (b : Bool) (str : Str) (l : List Int)
    (ll : List (List Int)) (m : List (Int × Int))
    (hn : minIntValue ≤ n ∧ n ≤ maxIntValue)
    (hl : (∀ x ∈ l, minIntValue ≤ x ∧ x ≤ maxIntValue)
          ∧ l.length ≤ listMaxIntValue)
    (hll : (∀ li ∈ ll, (∀ x ∈ li, minIntValue ≤ x ∧ x ≤ maxIntValue)
             ∧ li.length ≤ listMaxIntValue)
           ∧ ll.length ≤ listMaxIntValue ∧ ll ≠ [[]])
    (hm : (∀ e ∈ m, (minIntValue ≤ e.1 ∧ e.1 ≤ maxIntValue)
            ∧ (minIntValue ≤ e.2 ∧ e.2 ≤ maxIntValue))
          ∧ m.length ≤ listMaxIntValue ∧ chainLt m = true) :
    (intToString n intToPattern).bind (fun s => intToValue s intToPattern)
      = .ok n
  ∧ (boolToString b boolToPattern).bind (fun s => boolToValue s boolToPattern)
      = .ok b
  ∧ (stringToString str stringToPattern).bind
      (fun s => stringToValue s stringToPattern) = .ok str
  ∧ (vecIntToString l vecIntToPattern).bind
      (fun s => vecIntToValue s vecIntToPattern) = .ok l
  ∧ (vecVecIntToString ll vecVecIntToPattern).bind
      (fun s => vecVecIntToValue s vecVecIntToPattern) = .ok ll
  ∧ (mapIntIntToString m mapIntIntToPattern).bind
      (fun s => mapIntIntToValue s mapIntIntToPattern) = .ok m := by
  refine ⟨?_, ?_, ?_, ?_, ?_, ?_⟩
  · rw [intToString_ok n hn.1 hn.2]
    simp only [Except.bind]
    exact intToValue_enc n hn.1 hn.2
  · cases b <;> decide
  · simp [stringToString, stringToValue, stringToPattern, pmatch, Except.bind]
  · rw [vecIntToString_ok l hl.1 hl.2]
    simp only [Except.bind]
    exact vecIntToValue_ok l hl.1 hl.2
  · rw [vecVecIntToString_ok ll hll.1 hll.2.1 hll.2.2]
    simp only [Except.bind]
    exact vecVecIntToValue_ok ll hll.1 hll.2.1 hll.2.2
  · rw [mapIntIntToString_ok m hm.1 hm.2.1]
    simp only [Except.bind]
    exact mapIntIntToValue_ok m hm.1 hm.2.1 hm.2.2

theorem c1_value_roundtrip_witness :
    (intToString 42 intToPattern).bind (fun s => intToValue s intToPattern)
      = .ok 42
  ∧ (boolToString true boolToPattern).bind
      (fun s => boolToValue s boolToPattern) = .ok true
  ∧ (stringToString (chars "hi there") stringToPattern).bind
      (fun s => stringToValue s stringToPattern) = .ok (chars "hi there")
  ∧ (vecIntToString [1, -2] vecIntToPattern).bind
      (fun s => vecIntToValue s vecIntToPattern) = .ok [1, -2]
  ∧ (vecVecIntToString [[1, 2], [3]] vecVecIntToPattern).bind
      (fun s => vecVecIntToValue s vecVecIntToPattern) = .ok [[1, 2], [3]]
  ∧ (mapIntIntToString [(1, 2), (3, 4)] mapIntIntToPattern).bind
      (fun s => mapIntIntToValue s mapIntIntToPattern) = .ok [(1, 2), (3, 4)] :=
  c1_value_roundtrip 42 true (chars "hi there") [1, -2] [[1, 2], [3]]
    [(1, 2), (3, 4)] (by decide) (by decide) (by decide) (by decide)

/-- C1 counterexample: the unrestricted round-trip claim fails on the code
at the value `[[]]` of shape `vector<vector<int>>`: it serializes to the
empty string (the single inner list renders as ""), and the empty string
parses back to the empty outer container `[]`, not `[[]]`. -/
theorem c1_value_roundtrip_counterexample :
    (vecVecIntToString [[]] vecVecIntToPattern).bind
      (fun s => vecVecIntToValue s vecVecIntToPattern)
      = .ok ([] : List (List Int))
  ∧ ([] : List (List Int)) ≠ [[]] := by
  refine ⟨by decide, by decide⟩
